import Mathlib

/-!
# gcode-cli: the line-paced send/acknowledge engine

A shallow embedding of `src/main.cc` and `src/machine-connection.cc`.

* A byte of the C program is a `Char`; a C string or a `std::string` is the
  `List Char` of its bytes (the terminating NUL of a C string is implicit).
  The program never calls `setlocale` for `LC_CTYPE`, so `isspace`, `tolower`
  and `strncasecmp` are the ones of the "C" locale and only act on ASCII.
* An `int` is an `Int`.  The counters of `main` never leave the range of `int`
  on an input of fewer than 2^31 lines, and `atoi` is the value of the digit
  run (C leaves it undefined when that value is not an `int`).
* The operating system is explicit state: what the successive `read` and
  `write` calls on the transport return is a script, the set of open
  descriptors and the calls made are recorded.
-/

set_option autoImplicit false

namespace GcodeCli

/-! ## Bytes and the C library -/

/-- The byte 0 that ends a C string. -/
def NUL : Char := Char.ofNat 0

/-- The `isspace` of the "C" locale: space, and `\t \n \v \f \r` (9 to 13). -/
def isspace (c : Char) : Bool :=
  c.toNat == 32 || (9 ≤ c.toNat && c.toNat ≤ 13)

/-- The `isdigit` of the C library. -/
def isdigit (c : Char) : Bool :=
  48 ≤ c.toNat && c.toNat ≤ 57

/-- The `tolower` of the "C" locale: `A`..`Z` go to `a`..`z`. -/
def tolower (c : Char) : Char :=
  if 65 ≤ c.toNat ∧ c.toNat ≤ 90 then Char.ofNat (c.toNat + 32) else c

/-- The C library's `strncasecmp(s1, s2, n)`: compares at most `n` bytes, ignoring
case, and stops at the first difference or at the end of the strings.  Reading
past the end of a list reads the terminating NUL. -/
def strncasecmp : List Char → List Char → Nat → Int
  | _, _, 0 => 0
  | s1, s2, n + 1 =>
    let c1 := tolower (s1.headD NUL)
    let c2 := tolower (s2.headD NUL)
    if c1 ≠ c2 then (c1.toNat : Int) - (c2.toNat : Int)
    else if c1 = NUL then 0
    else strncasecmp s1.tail s2.tail n

/-- The digit loop of `atoi`: accumulates the leading run of decimal digits. -/
def atoi.digits : List Char → Int → Int
  | [], acc => acc
  | c :: cs, acc => if isdigit c then atoi.digits cs (10 * acc + ((c.toNat : Int) - 48)) else acc

/-- The C library's `atoi`: skips leading white space, takes an optional sign and
the leading run of digits; 0 when there is no digit. -/
def atoi (s : List Char) : Int :=
  match s.dropWhile isspace with
  | '-' :: cs => - atoi.digits cs 0
  | '+' :: cs => atoi.digits cs 0
  | cs => atoi.digits cs 0

/-! ## `main.cc`: preprocessing of a source line -/

/-- The `line.find_first_of(c)` of `std::string`: the index of the first `c`, `none`
for `npos`. -/
def find_first_of (line : List Char) (c : Char) : Option Nat :=
  match line with
  | [] => none
  | x :: xs => if x = c then some 0 else (find_first_of xs c).map (· + 1)

/-- The loop `while (!line.empty() && isspace(line[line.size()-1]))
line.resize(line.length()-1);` of `main`; it runs at most `line.length` times. -/
def stripTrailing.loop : Nat → List Char → List Char
  | 0, line => line
  | n + 1, line =>
    if !line.isEmpty && isspace (line.getLastD NUL) then
      stripTrailing.loop n (line.take (line.length - 1))
    else line

/-- The trailing-space loop of `main`, lines 95 to 98. -/
def stripTrailing (line : List Char) : List Char :=
  stripTrailing.loop line.length line

/-- Lines 87 to 98 of `main`: cut the line at its first `;`, then strip the
trailing white space. -/
def preprocess (line : List Char) : List Char :=
  let line :=
    match find_first_of line ';' with
    | some comment_start => line.take comment_start
    | none => line
  stripTrailing line

/-- The reference of the preprocessing, in the words of the specification: the part
of the line before its first `;` (all of it when there is none) with all
trailing white space removed. -/
def preprocessRef (line : List Char) : List Char :=
  ((line.takeWhile (· ≠ ';')).reverse.dropWhile isspace).reverse

/-! ## `main.cc`: the reliable writer -/

/-- The result of `reliable_write`: its return value, the part of the write script
that is left, and every `write(fd, buffer, len)` call it made, as the bytes
offered and the value returned. -/
structure WriteResult where
  ret : Bool
  wr : List (Option Nat)
  calls : List (List Char × Int)
deriving DecidableEq

/-- The function `reliable_write` of `main.cc`.  The first argument scripts the
transport: at each `write` call the next entry is taken, `none` makes the
call return -1 and `some k` makes it accept `min k len` bytes; once the script
is used up a call accepts all it is offered.  The script is finite, so the
function is total; a transport that takes no byte for ever, on which the loop
of the source does not end, has no script. -/
def reliable_write : List (Option Nat) → List Char → WriteResult
  | wr, [] => ⟨true, wr, []⟩
  | [], b :: bs => ⟨true, [], [(b :: bs, ((b :: bs).length : Int))]⟩
  | none :: wr, b :: bs => ⟨false, wr, [(b :: bs, -1)]⟩
  | some k :: wr, b :: bs =>
    let w := min k (b :: bs).length
    let r := reliable_write wr ((b :: bs).drop w)
    ⟨r.ret, r.wr, (b :: bs, (w : Int)) :: r.calls⟩

/-- The bytes the transport took in a sequence of `write` calls. -/
def accepted (calls : List (List Char × Int)) : List Char :=
  calls.flatMap (fun c => c.1.take c.2.toNat)

/-! ## `machine-connection.cc`: reading the responses -/

/-- What the successive `read(fd, p, 1)` calls on the transport return: `some c` when
one byte was read, `none` for a call that returns 0 or less.  Once the script
is used up every read fails. -/
abbrev Channel := List (Option Char)

/-- The result of `ReadLine`: the value returned, the caller's buffer, the channel
left unread and the bytes echoed to standard output. -/
structure ReadLineResult where
  ret : Int
  result : List Char
  fd : Channel
  echo : List Char
deriving DecidableEq

/-- The `while (read(fd, result, 1) > 0)` loop of `ReadLine`, `len` already
decremented; `bytes_read` is also the offset of the pointer `result` in the
caller's buffer. -/
def ReadLine.loop (len : Int) (do_echo : Bool) :
    Channel → List Char → Nat → List Char → ReadLineResult
  | [], result, _, echo => ⟨-1, result, [], echo⟩
  | none :: fd, result, _, echo => ⟨-1, result, fd, echo⟩
  | some c :: fd, result, bytes_read, echo =>
    let result := result.set bytes_read c
    let echo := if do_echo then echo ++ [c] else echo
    if c = '\n' ∨ c = '\r' ∨ (bytes_read : Int) ≥ len then
      ⟨bytes_read, result.set bytes_read NUL, fd, echo⟩
    else
      ReadLine.loop len do_echo fd result (bytes_read + 1) echo

/-- The function `ReadLine(fd, result, len, do_echo)`; `result` is the caller's
buffer, of `len` bytes. -/
def ReadLine (fd : Channel) (result : List Char) (len : Int) (do_echo : Bool) :
    ReadLineResult :=
  ReadLine.loop (len - 1) do_echo fd result 0 []

/-- The result of `WaitForOkAck`: the value returned, the channel left unread, and
the number of `ReadLine` calls made. -/
structure AckResult where
  ret : Bool
  fd : Channel
  reads : Nat
deriving DecidableEq

/-- The `for (;;)` loop of `WaitForOkAck`, bounded by `fuel` iterations (`none` when
they are used up).  What goes to standard error is not modelled. -/
def WaitForOkAck.loop : Nat → Channel → List Char → Nat → Option AckResult
  | 0, _, _, _ => none
  | fuel + 1, fd, buffer, reads =>
    let r := ReadLine fd buffer 512 false
    let got_chars := r.ret
    let buffer := r.result
    if got_chars < 0 then some ⟨false, r.fd, reads + 1⟩
    else if got_chars ≥ 2 ∧ strncasecmp buffer ['o', 'k'] 2 = 0 then
      some ⟨true, r.fd, reads + 1⟩
    else if (got_chars ≥ 2 ∧ strncasecmp buffer ['r', 's'] 2 = 0)
        ∨ (got_chars ≥ 2 ∧ strncasecmp buffer ['!', '!'] 2 = 0)
        ∨ (got_chars ≥ 5 ∧ strncasecmp buffer ['e', 'r', 'r', 'o', 'r'] 5 = 0)
        ∨ (got_chars ≥ 5 ∧ strncasecmp buffer ['f', 'a', 't', 'a', 'l'] 5 = 0)
        ∨ (got_chars ≥ 6 ∧ strncasecmp buffer ['r', 'e', 's', 'e', 'n', 'd'] 6 = 0) then
      some ⟨false, r.fd, reads + 1⟩
    else WaitForOkAck.loop fuel r.fd buffer (reads + 1)

/-- The function `WaitForOkAck(fd)`: its buffer is 512 zero bytes.  Every iteration
that does not return has read at least one byte, so one iteration more than
the channel has entries is enough fuel (`WaitForOkAck_total`). -/
def WaitForOkAck (fd : Channel) : Option AckResult :=
  WaitForOkAck.loop (fd.length + 1) fd (List.replicate 512 NUL) 0

/-! ## The operating system -/

/-- The speeds of `termios.h` that `SetTTYParams` can select. -/
inductive speed_t
  | B9600 | B19200 | B38400 | B57600 | B115200 | B230400 | B460800
deriving DecidableEq

/-- The rate in bits per second a speed constant stands for. -/
def speed_t.baud : speed_t → Nat
  | .B9600 => 9600
  | .B19200 => 19200
  | .B38400 => 38400
  | .B57600 => 57600
  | .B115200 => 115200
  | .B230400 => 230400
  | .B460800 => 460800

/-- What `getaddrinfo` can answer: an error code, success with a null result, or
success with an address. -/
inductive AddrInfo
  | error | null | addr
deriving DecidableEq

/-- The calls of the program that are observed. -/
inductive Call
  | open_ (path : List Char) (ret : Int)
  | tcgetattr (fd : Int) (ok : Bool)
  | tcsetattr (fd : Int) (speed : speed_t) (ok : Bool)
  | getaddrinfo (host port : List Char) (ret : AddrInfo)
  | socket (ret : Int)
  | connect (fd : Int) (ok : Bool)
  | close (fd : Int)
  | reliable_write (buffer : List Char) (ret : Bool)
  | WaitForOkAck (ret : Bool)
  | getchar
deriving DecidableEq

/-- The environment of a run: what the system calls answer.  A descriptor is
negative when the call failed. -/
structure Env where
  /-- the content of the file of that name, `none` when it cannot be opened -/
  file : List Char → Option (List Char)
  /-- the value of `open(path, O_RDWR | O_NOCTTY | O_SYNC)` -/
  open_ : List Char → Int
  /-- whether `tcgetattr(fd, &tty)` succeeds -/
  tcgetattr : Int → Bool
  /-- whether `tcsetattr(fd, TCSANOW, &tty)` succeeds -/
  tcsetattr : Int → speed_t → Bool
  /-- the answer of `getaddrinfo(host, port, ...)` -/
  getaddrinfo : List Char → List Char → AddrInfo
  /-- the value of `socket(...)` -/
  socket : Int
  /-- whether `connect(fd, ...)` succeeds -/
  connect : Int → Bool
  /-- the bulk reads of the drain phase: one entry for each time the transport
  is readable, `none` for a read that fails -/
  stale : List (Option (List Char))
  /-- the single-byte reads of the transport once the session has started -/
  rd : Channel
  /-- the write calls on the transport, see `reliable_write` -/
  wr : List (Option Nat)

/-- The state of the operating system: the descriptors that are open and the calls
made so far, oldest first. -/
structure Kernel where
  fds : List Int
  calls : List Call
deriving DecidableEq

/-- Record a call. -/
def Kernel.call (k : Kernel) (c : Call) : Kernel :=
  { k with calls := k.calls ++ [c] }

/-- A call that returns a descriptor: it is open from then on when it is not negative. -/
def Kernel.opened (k : Kernel) (fd : Int) : Kernel :=
  if fd < 0 then k else { k with fds := fd :: k.fds }

/-- The call `close(fd)`. -/
def Kernel.close (k : Kernel) (fd : Int) : Kernel :=
  { fds := k.fds.filter (· ≠ fd), calls := k.calls ++ [Call.close fd] }

/-! ## `machine-connection.cc`: opening the transport -/

/-- The C library's `strchr(s, c)`: the string that starts at the first `c` of `s`,
`none` for a null pointer. -/
def strchr : List Char → Char → Option (List Char)
  | [], _ => none
  | x :: xs, c => if x = c then some (x :: xs) else strchr xs c

/-- The C library's `strchrnul(s, c)`: as `strchr`, but the empty string at the end
of `s` when there is no `c`. -/
def strchrnul (s : List Char) (c : Char) : List Char :=
  (strchr s c).getD []

/-- Lines 19 to 39 of `SetTTYParams`: the speed selected by `params`, `none` where the
function prints "Invalid speed" and returns false. -/
def SetTTYParams.speed (params : List Char) : Option speed_t :=
  let params :=
    if params.headD NUL = 'b' ∨ params.headD NUL = 'B' then params.tail else params
  if params.headD NUL ≠ NUL then
    let speed_number := atoi params
    if speed_number = 9600 then some .B9600
    else if speed_number = 19200 then some .B19200
    else if speed_number = 38400 then some .B38400
    else if speed_number = 57600 then some .B57600
    else if speed_number = 115200 then some .B115200
    else if speed_number = 230400 then some .B230400
    else if speed_number = 460800 then some .B460800
    else none
  else some .B115200

/-- The function `SetTTYParams(fd, params)`.  Of the attributes set between
`tcgetattr` and `tcsetattr` the speed is kept. -/
def SetTTYParams (env : Env) (k : Kernel) (fd : Int) (params : List Char) : Bool × Kernel :=
  match SetTTYParams.speed params with
  | none => (false, k)
  | some speed =>
    let got := env.tcgetattr fd
    let k := k.call (.tcgetattr fd got)
    if !got then (false, k)
    else
      let set := env.tcsetattr fd speed
      let k := k.call (.tcsetattr fd speed set)
      if !set then (false, k) else (true, k)

/-- The function `OpenTCPSocket(host)`. -/
def OpenTCPSocket (env : Env) (k : Kernel) (host : List Char) : Int × Kernel :=
  let (host, port) :=
    match strchr host ':' with
    | some colon_pos => (host.take (host.length - colon_pos.length), colon_pos.tail)
    | none => (host, ['8', '8', '8', '8'])
  let rc := env.getaddrinfo host port
  let k := k.call (.getaddrinfo host port rc)
  match rc with
  | .error => (-1, k)
  | .null => (-1, k)
  | .addr =>
    let fd := env.socket
    let k := (k.call (.socket fd)).opened fd
    if fd ≥ 0 then
      let ok := env.connect fd
      let k := k.call (.connect fd ok)
      if !ok then (-1, k.close fd) else (fd, k)
    else (fd, k)

/-- The function `OpenTTY(descriptor)`. -/
def OpenTTY (env : Env) (k : Kernel) (descriptor : List Char) : Int × Kernel :=
  let comma := strchrnul descriptor ','
  let path := descriptor.take (descriptor.length - comma.length)
  let fd := env.open_ path
  let k := (k.call (.open_ path fd)).opened fd
  if fd < 0 then (-1, k)
  else
    let (ok, k) := SetTTYParams env k fd comma.tail
    if !ok then (-1, k) else (fd, k)

/-- The function `OpenMachineConnection(descriptor)`; `none` is the null pointer. -/
def OpenMachineConnection (env : Env) (k : Kernel) (descriptor : Option (List Char)) :
    Int × Kernel :=
  match descriptor with
  | none => (-1, k)
  | some descriptor =>
    let (fd, k) := OpenTTY env k descriptor
    if fd ≥ 0 then (fd, k) else OpenTCPSocket env k descriptor

/-- The loop of `DiscardPendingInput`: each entry of the script is one turn in which
`AwaitReadReady` reports the transport readable and `read(fd, buf, 127)`
returns; the script used up, `AwaitReadReady` returns 0. -/
def DiscardPendingInput.loop : List (Option (List Char)) → Int → Int
  | [], total_bytes => total_bytes
  | none :: _, _ => -1
  | some bytes :: stale, total_bytes =>
    DiscardPendingInput.loop stale (total_bytes + ((bytes.take 127).length : Int))

/-- The function `DiscardPendingInput(fd, timeout_ms)`. -/
def DiscardPendingInput (env : Env) (fd : Int) : Int :=
  if fd < 0 then 0 else DiscardPendingInput.loop env.stale 0

/-! ## `main.cc`: the send loop -/

/-- The `std::ifstream` of `main`: the bytes not yet read and two of its state bits. -/
structure ifstream where
  buf : List Char
  eofbit : Bool
  failbit : Bool
deriving DecidableEq

/-- The stream `std::ifstream input(filename)`, rewound by `seekg(0, input.beg)`.  A file
that cannot be opened gives a stream with `failbit` set and `eofbit` clear, on
which the loop of `main` does not end. -/
def ifstream.fromFile : Option (List Char) → ifstream
  | some text => ⟨text, false, false⟩
  | none => ⟨[], false, true⟩

/-- The call `getline(input, line)` of the C++ library: when the stream is not good it
sets `failbit` and leaves `line`; else it clears `line` and extracts bytes up
to the first newline, which is extracted and not stored, or up to the end of
the file, where it sets `eofbit`, and `failbit` too when it extracted nothing. -/
def getline (input : ifstream) (line : List Char) : ifstream × List Char :=
  if input.eofbit || input.failbit then ({ input with failbit := true }, line)
  else
    match strchr input.buf '\n' with
    | some nl => ({ input with buf := nl.tail }, input.buf.take (input.buf.length - nl.length))
    | none => (⟨[], true, input.buf.isEmpty⟩, input.buf)

/-- The variables of `main` and the state of its surroundings during the send loop. -/
structure Session where
  input : ifstream
  line : List Char
  line_count : Int
  lines_sent : Int
  machine_fd : Int
  /-- the reads of the transport still to come -/
  rd : Channel
  /-- the writes of the transport still to come -/
  wr : List (Option Nat)
  /-- all the bytes the transport has taken -/
  sent : List Char
  k : Kernel
deriving DecidableEq

/-- The end of a run of `main`: the exit status and the final state. -/
structure Outcome where
  code : Int
  s : Session
deriving DecidableEq

/-- The loop `while (!input.eof())` of `main` followed by lines 127 to 131, bounded by
`fuel` iterations (`none` when they are used up).  The progress output is not
modelled. -/
def main.loop : Nat → Session → Option Outcome
  | 0, _ => none
  | fuel + 1, s =>
    if s.input.eofbit then
      some ⟨0, { s with k := s.k.close s.machine_fd }⟩
    else
      let (input, line) := getline s.input s.line
      let s := { s with input := input, line_count := s.line_count + 1 }
      let line := preprocess line
      if line.isEmpty then main.loop fuel { s with line := line }
      else
        let line := line ++ ['\n']
        let w := reliable_write s.wr line
        let s := { s with line := line, wr := w.wr, sent := s.sent ++ accepted w.calls,
                          k := s.k.call (.reliable_write line w.ret) }
        if !w.ret then some ⟨1, s⟩
        else
          let s := { s with lines_sent := s.lines_sent + 1 }
          match WaitForOkAck s.rd with
          | none => none
          | some a =>
            let s := { s with rd := a.fd, k := s.k.call (.WaitForOkAck a.ret) }
            if !a.ret then main.loop fuel { s with k := s.k.call .getchar }
            else main.loop fuel s

/-- The function `main` called with at least one argument: `filename` is `argv[1]` and
`connect_str` is `argv[2]`, `none` when it is absent.  Every iteration of the
loop on an opened file extracts a byte or reaches the end of the file, so two
iterations more than the file has bytes are enough fuel. -/
def main (env : Env) (filename : List Char) (connect_str : Option (List Char)) :
    Option Outcome :=
  let input := ifstream.fromFile (env.file filename)
  let connect_str := connect_str.getD "/dev/ttyUSB0,b115200".toList
  let (machine_fd, k) := OpenMachineConnection env ⟨[], []⟩ (some connect_str)
  let s : Session := ⟨input, [], 0, 0, machine_fd, env.rd, env.wr, [], k⟩
  if machine_fd < 0 then some ⟨1, s⟩
  else
    let _ := DiscardPendingInput env machine_fd
    main.loop (input.buf.length + 2) s

/-! ## Vocabulary of the specification -/

/-- The bytes of a text as the successful single-byte reads of a channel. -/
def bytes (s : String) : Channel := s.toList.map some

/-- A byte that ends a response line. -/
def isTerminator (c : Char) : Prop := c = '\n' ∨ c = '\r'

instance (c : Char) : Decidable (isTerminator c) := by
  unfold isTerminator; infer_instance

/-- The line `l` has at least as many bytes as `pat` and begins with `pat`, ignoring
case (`pat` is in lower case). -/
def beginsWith (pat l : List Char) : Prop :=
  pat.length ≤ l.length ∧ (l.take pat.length).map tolower = pat

instance (pat l : List Char) : Decidable (beginsWith pat l) := by
  unfold beginsWith; infer_instance

/-- An acknowledgement: at least 2 bytes, the first two `ok` in any case. -/
def isAck (l : List Char) : Prop := beginsWith ['o', 'k'] l

instance (l : List Char) : Decidable (isAck l) := by
  unfold isAck; infer_instance

/-- An error signal: `rs`, `!!`, `error`, `fatal` or `resend` in any case at the
start, with at least that many bytes. -/
def isError (l : List Char) : Prop :=
  beginsWith ['r', 's'] l ∨ beginsWith ['!', '!'] l ∨ beginsWith ['e', 'r', 'r', 'o', 'r'] l
    ∨ beginsWith ['f', 'a', 't', 'a', 'l'] l ∨ beginsWith ['r', 'e', 's', 'e', 'n', 'd'] l

instance (l : List Char) : Decidable (isError l) := by
  unfold isError; infer_instance

/-- A response line: at most 511 payload bytes, none of them a terminator. -/
def responseLine (l : List Char) : Prop :=
  l.length ≤ 511 ∧ ∀ c ∈ l, ¬ isTerminator c

instance (l : List Char) : Decidable (responseLine l) := by
  unfold responseLine; infer_instance

/-- The bytes of a response line on the channel, its terminator included. -/
def frame (p : List Char × Char) : Channel := p.1.map some ++ [some p.2]

/-- The number of chunks of `N` bytes that cover `L` bytes: `L / N` rounded up. -/
def chunks (L N : Nat) : Nat := (L + N - 1) / N

/-- The number that a string of decimal digits writes. -/
def decimalValue (r : List Char) : Nat :=
  r.foldl (fun a c => 10 * a + (c.toNat - 48)) 0

/-- The speed constant of a rate, `none` when the rate is none of the seven. -/
def speedOfRate (n : Int) : Option speed_t :=
  [speed_t.B9600, .B19200, .B38400, .B57600, .B115200, .B230400, .B460800].find?
    (fun v => (v.baud : Int) = n)

/-- The baud suffix after one optional leading `b` or `B`. -/
def baudRemainder : List Char → List Char
  | 'b' :: r => r
  | 'B' :: r => r
  | s => s

/-- The reference of the baud selection, in the words of the specification: drop one
optional leading `b` or `B`; an empty remainder selects 115200; else the
remainder is read as a decimal integer, which selects the speed of that rate
or fails. -/
def baudRef (s : List Char) : Option speed_t :=
  if baudRemainder s = [] then some .B115200 else speedOfRate (atoi (baudRemainder s))

/-- The host and the port of a TCP descriptor, in the words of the specification: the
text before the first `:` and the text after it, the whole descriptor and
`8888` when it has no `:`. -/
def tcpTarget (d : List Char) : List Char × List Char :=
  if ':' ∈ d then (d.takeWhile (· ≠ ':'), (d.dropWhile (· ≠ ':')).tail)
  else (d, ['8', '8', '8', '8'])

/-- The part of `OpenTCPSocket` from `getaddrinfo` on, for a host and a port. -/
def tcpConnect (env : Env) (k : Kernel) (host port : List Char) : Int × Kernel :=
  let rc := env.getaddrinfo host port
  let k := k.call (.getaddrinfo host port rc)
  match rc with
  | .error => (-1, k)
  | .null => (-1, k)
  | .addr =>
    let fd := env.socket
    let k := (k.call (.socket fd)).opened fd
    if fd ≥ 0 then
      let ok := env.connect fd
      let k := k.call (.connect fd ok)
      if !ok then (-1, k.close fd) else (fd, k)
    else (fd, k)

/-- The text of the file whose pieces between newlines are `lines`: the successive
`getline` calls of the send loop yield exactly these pieces. -/
def joinLines : List (List Char) → List Char
  | [] => []
  | [l] => l
  | l :: l2 :: ls => l ++ '\n' :: joinLines (l2 :: ls)

/-- What the send loop writes for a source line: nothing when its preprocessed form is
empty, else that form and one newline. -/
def payload (l : List Char) : List Char :=
  if preprocess l = [] then [] else preprocess l ++ ['\n']

/-- What the send loop does on the transport, the answer of the classifier left out. -/
inductive SendEvent
  | write (buffer : List Char) (complete : Bool)
  | ack
deriving DecidableEq

/-- The transport event of a call, `none` for the other calls. -/
def Call.sendEvent : Call → Option SendEvent
  | .reliable_write buffer ret => some (.write buffer ret)
  | .WaitForOkAck _ => some .ack
  | _ => none

/-- The transport events the send loop owes a source line: one complete write of its
payload, then one call of the classifier; nothing when the preprocessed line
is empty. -/
def lineEvents (l : List Char) : List SendEvent :=
  if preprocess l = [] then [] else [.write (preprocess l ++ ['\n']) true, .ack]

/-- The descriptor `main` opens: `argv[2]`, or the default. -/
def descriptorOf (connect_str : Option (List Char)) : List Char :=
  connect_str.getD "/dev/ttyUSB0,b115200".toList

/-- A machine for the scenarios: the paths `/dev/ttyUSB0` and `/dev/x` open as
descriptor 3 and are terminals, every name resolves and connects as
descriptor 4; the file holds `text`, the device answers `rd` and takes the
writes as `wr` says. -/
def scenario (text : String) (rd : String) (wr : List (Option Nat)) : Env where
  file := fun _ => some text.toList
  open_ := fun path =>
    if path = "/dev/ttyUSB0".toList ∨ path = "/dev/x".toList then 3 else -1
  tcgetattr := fun _ => true
  tcsetattr := fun _ _ => true
  getaddrinfo := fun _ _ => .addr
  socket := 4
  connect := fun _ => true
  stale := []
  rd := bytes rd
  wr := wr

/-- The machine `env` without name resolution: `getaddrinfo` fails for every name. -/
def offline (env : Env) : Env :=
  { env with getaddrinfo := fun _ _ => AddrInfo.error }

/-- What is observed at the end of a run: the exit status, `lines_sent`, `line_count`,
the descriptors still open and whether the transport was closed. -/
def Outcome.summary (o : Outcome) : Int × Int × Int × List Int × Bool :=
  (o.code, o.s.lines_sent, o.s.line_count, o.s.k.fds,
    decide (Call.close o.s.machine_fd ∈ o.s.k.calls))

/-! ## Lemmas -/

theorem find_first_of_take (line : List Char) (c : Char) :
    (find_first_of line c).elim line (fun k => line.take k) = line.takeWhile (· ≠ c) := by
  induction line with
  | nil => rfl
  | cons x xs ih =>
    unfold find_first_of
    by_cases h : x = c
    · simp [h]
    · simp only [h, if_false]
      cases hf : find_first_of xs c with
      | none => simp [hf] at ih ⊢; rw [List.takeWhile_cons]; simp [h]; exact ih
      | some k => simp [hf] at ih ⊢; rw [List.takeWhile_cons]; simp [h]; exact ih

/-- With at least as much fuel as the line is long, the loop removes all trailing
white space. -/
theorem stripTrailing_loop_eq (n : Nat) (line : List Char) (h : line.length ≤ n) :
    stripTrailing.loop n line = (line.reverse.dropWhile isspace).reverse := by
  induction n generalizing line with
  | zero =>
    have : line = [] := List.length_eq_zero.mp (Nat.le_zero.mp h)
    subst this; rfl
  | succ n ih =>
    rcases List.eq_nil_or_concat line with rfl | ⟨init, x, rfl⟩
    · rfl
    · unfold stripTrailing.loop
      have h2 : init.length ≤ n := by simpa using h
      by_cases hx : isspace x = true
      · simp [hx, List.dropWhile_cons]
        rw [ih init h2]
      · simp [hx, List.dropWhile_cons]

/-- The preprocessing of `main` is the reference of the specification. -/
theorem preprocess_eq_ref (line : List Char) : preprocess line = preprocessRef line := by
  have h := find_first_of_take line ';'
  unfold preprocess preprocessRef stripTrailing
  cases hf : find_first_of line ';' with
  | none =>
    rw [hf] at h
    simp only [Option.elim] at h
    simp only [← h]
    exact stripTrailing_loop_eq _ _ (le_refl _)
  | some k =>
    rw [hf] at h
    simp only [Option.elim] at h
    simp only [← h]
    exact stripTrailing_loop_eq _ _ (le_refl _)

/-- The first element left by `dropWhile` does not satisfy the test. -/
theorem head_dropWhile_false (p : Char → Bool) (m : List Char) (c : Char)
    (h : (m.dropWhile p).head? = some c) : p c = false := by
  induction m with
  | nil => simp at h
  | cons x xs ih =>
    rw [List.dropWhile_cons] at h
    by_cases hx : p x = true
    · rw [if_pos hx] at h; exact ih h
    · rw [if_neg hx] at h
      simp only [List.head?_cons, Option.some.injEq] at h
      subst h; simpa using hx

/-- A preprocessed line holds no `;`. -/
theorem preprocessRef_no_semicolon (line : List Char) : ';' ∉ preprocessRef line := by
  unfold preprocessRef
  intro h
  have h1 : ';' ∈ (line.takeWhile (· ≠ ';')).reverse :=
    (List.dropWhile_sublist _).subset (List.mem_reverse.mp h)
  have h2 := List.mem_takeWhile_imp (List.mem_reverse.mp h1)
  simp at h2

/-- Every byte of a preprocessed line is a byte of the source line. -/
theorem preprocessRef_subset (line : List Char) (c : Char) (h : c ∈ preprocessRef line) :
    c ∈ line := by
  unfold preprocessRef at h
  have h1 : c ∈ (line.takeWhile (· ≠ ';')).reverse :=
    (List.dropWhile_sublist _).subset (List.mem_reverse.mp h)
  exact (List.takeWhile_sublist _).subset (List.mem_reverse.mp h1)

/-- A preprocessed line does not end in white space. -/
theorem preprocessRef_last (line : List Char) (c : Char)
    (h : (preprocessRef line).getLast? = some c) : isspace c = false := by
  unfold preprocessRef at h
  rw [List.getLast?_reverse] at h
  exact head_dropWhile_false _ _ _ h

/-- The loop of `ReadLine` on bytes `l` that are stored, followed by a byte `t` at
which it stops, because `t` is a terminator or because the bound is reached: it
returns the number of bytes stored, leaves them and a NUL in the buffer, and has
consumed `t` as well. -/
theorem ReadLine_loop_stop (len : Int) (e : Bool) (l : List Char) (t : Char) (rest : Channel)
    (buf : List Char) (n : Nat) (echo : List Char)
    (hl : ∀ c ∈ l, ¬ isTerminator c) (hlen : ((n + l.length : Nat) : Int) ≤ len)
    (hstop : isTerminator t ∨ ((n + l.length : Nat) : Int) ≥ len)
    (hbuf : n + l.length < buf.length) :
    ReadLine.loop len e (l.map some ++ some t :: rest) buf n echo =
      ⟨((n + l.length : Nat) : Int), buf.take n ++ l ++ NUL :: buf.drop (n + l.length + 1), rest,
        if e then echo ++ l ++ [t] else echo⟩ := by
  induction l generalizing buf n echo with
  | nil =>
    simp only [List.map_nil, List.nil_append, List.length_nil, Nat.add_zero] at *
    unfold ReadLine.loop
    have hc : t = '\n' ∨ t = '\r' ∨ (n : Int) ≥ len := by
      rcases hstop with h | h
      · rcases h with h | h
        · exact Or.inl h
        · exact Or.inr (Or.inl h)
      · exact Or.inr (Or.inr h)
    simp only [hc, if_true, List.set_set, List.append_nil]
    rw [List.set_eq_take_cons_drop _ hbuf]
  | cons c l ih =>
    have hc : ¬ isTerminator c := hl c (List.mem_cons_self _ _)
    have hl2 : ∀ c ∈ l, ¬ isTerminator c := fun x hx => hl x (List.mem_cons_of_mem _ hx)
    simp only [List.length_cons] at hlen hstop hbuf
    have hn : ¬ ((n : Int) ≥ len) := by push_cast at hlen; omega
    have hcond : ¬ (c = '\n' ∨ c = '\r' ∨ (n : Int) ≥ len) := by
      unfold isTerminator at hc
      tauto
    simp only [List.map_cons, List.cons_append]
    unfold ReadLine.loop
    simp only [hcond, if_false]
    rw [ih (buf.set n c) (n + 1) _ hl2 (by push_cast at hlen ⊢; omega)
      (by rcases hstop with h | h
          · exact Or.inl h
          · right; push_cast at h ⊢; omega)
      (by rw [List.length_set]; omega)]
    have e1 : (buf.set n c).take (n + 1) = buf.take n ++ [c] := by
      rw [List.set_eq_take_cons_drop _ (by omega : n < buf.length)]
      rw [List.take_append_eq_append_take]
      simp [List.length_take, Nat.min_eq_left (by omega : n ≤ buf.length)]
    have e2 : (buf.set n c).drop (n + 1 + l.length + 1) = buf.drop (n + (l.length + 1) + 1) := by
      rw [List.drop_set_of_lt _ _ (by omega)]
      congr 1; omega
    rw [e1, e2]
    have e3 : n + 1 + l.length = n + (l.length + 1) := by omega
    cases e <;> simp [e3]

/-- The loop of `ReadLine` on bytes that are stored and then a read that fails returns
-1. -/
theorem ReadLine_loop_fail (len : Int) (e : Bool) (l : List Char) (tail : Channel)
    (buf : List Char) (n : Nat) (echo : List Char)
    (hl : ∀ c ∈ l, ¬ isTerminator c) (hlen : ((n + l.length : Nat) : Int) ≤ len)
    (htail : tail = [] ∨ ∃ rest, tail = none :: rest) :
    (ReadLine.loop len e (l.map some ++ tail) buf n echo).ret = -1 ∧
    (ReadLine.loop len e (l.map some ++ tail) buf n echo).fd = tail.tail := by
  induction l generalizing buf n echo with
  | nil =>
    rcases htail with rfl | ⟨rest, rfl⟩ <;> simp [ReadLine.loop]
  | cons c l ih =>
    have hc : ¬ isTerminator c := hl c (List.mem_cons_self _ _)
    have hl2 : ∀ c ∈ l, ¬ isTerminator c := fun x hx => hl x (List.mem_cons_of_mem _ hx)
    simp only [List.length_cons] at hlen
    have hn : ¬ ((n : Int) ≥ len) := by push_cast at hlen; omega
    have hcond : ¬ (c = '\n' ∨ c = '\r' ∨ (n : Int) ≥ len) := by
      unfold isTerminator at hc
      tauto
    simp only [List.map_cons, List.cons_append]
    unfold ReadLine.loop
    simp only [hcond, if_false]
    exact ih _ _ _ hl2 (by push_cast at hlen ⊢; omega)

/-- The loop of `ReadLine` never lengthens the channel, and shortens it when it does
not fail. -/
theorem ReadLine_loop_fd_length (len : Int) (e : Bool) (fd : Channel) (buf : List Char) (n : Nat)
    (echo : List Char) :
    (ReadLine.loop len e fd buf n echo).fd.length ≤ fd.length ∧
      (0 ≤ (ReadLine.loop len e fd buf n echo).ret →
        (ReadLine.loop len e fd buf n echo).fd.length < fd.length) := by
  induction fd generalizing buf n echo with
  | nil => simp [ReadLine.loop]
  | cons x fd ih =>
    cases x with
    | none => simp [ReadLine.loop]
    | some c =>
      unfold ReadLine.loop
      by_cases hcond : c = '\n' ∨ c = '\r' ∨ (n : Int) ≥ len
      · simp only [hcond, if_true, List.length_cons]
        omega
      · simp only [hcond, if_false, List.length_cons]
        have := ih (buf.set n c) (n + 1) (if e = true then echo ++ [c] else echo)
        constructor
        · omega
        · intro h; have := this.2 h; omega

/-- Bytes with the same code are equal. -/
theorem Char_toNat_inj (a b : Char) (h : a.toNat = b.toNat) : a = b := by
  rw [← Char.ofNat_toNat a, ← Char.ofNat_toNat b, h]

/-- Only NUL is NUL in lower case. -/
theorem tolower_ne_NUL (c : Char) (h : c ≠ NUL) : tolower c ≠ NUL := by
  unfold tolower
  split
  · rename_i hc
    intro h0
    have h1 : (Char.ofNat (c.toNat + 32)).toNat = NUL.toNat := by rw [h0]
    obtain ⟨h2, h3⟩ := hc
    generalize c.toNat = n at h1 h2 h3
    interval_cases n <;> revert h1 <;> decide
  · exact h

/-- For a pattern without NUL, `strncasecmp` over the length of the pattern is 0
exactly when the string has that many bytes and they are the pattern, ignoring case. -/
theorem strncasecmp_eq_zero (pat : List Char) (hp : NUL ∉ pat) (s : List Char) :
    strncasecmp s pat pat.length = 0 ↔
      pat.length ≤ s.length ∧ (s.take pat.length).map tolower = pat.map tolower := by
  induction pat generalizing s with
  | nil => simp [strncasecmp]
  | cons p ps ih =>
    have hp1 : p ≠ NUL := fun h => hp (h ▸ List.mem_cons_self _ _)
    have hp2 : NUL ∉ ps := fun h => hp (List.mem_cons_of_mem _ h)
    have hlow := tolower_ne_NUL p hp1
    simp only [List.length_cons]
    unfold strncasecmp
    simp only [List.headD_cons, List.tail_cons]
    cases s with
    | nil =>
      have h0 : tolower NUL = NUL := by decide
      have hne : tolower (([] : List Char).headD NUL) ≠ tolower p := by
        simp only [List.headD_nil, h0]; exact fun h => hlow h.symm
      simp only [hne, ne_eq, not_false_eq_true, if_true, List.length_nil]
      constructor
      · intro h
        exfalso
        apply hne
        apply Char_toNat_inj
        omega
      · intro h; omega
    | cons a as =>
      simp only [List.headD_cons, List.tail_cons, List.length_cons, List.take_succ_cons,
        List.map_cons, List.cons.injEq, Nat.add_le_add_iff_right]
      by_cases hne : tolower a = tolower p
      · have h2 : ¬ (tolower a = NUL) := by rw [hne]; exact hlow
        simp only [hne, ne_eq, not_true_eq_false, if_false, hlow, true_and]
        exact ih hp2 as
      · simp only [hne, ne_eq, not_false_eq_true, if_true, false_and, and_false, iff_false]
        intro h
        apply hne
        apply Char_toNat_inj
        omega

/-- The call of `ReadLine` that `WaitForOkAck` makes, on a response line and its
terminator. -/
theorem ReadLine_line (l : List Char) (t : Char) (rest : Channel) (buffer : List Char)
    (hl : responseLine l) (ht : isTerminator t) (hb : buffer.length = 512) :
    ReadLine (l.map some ++ some t :: rest) buffer 512 false =
      ⟨(l.length : Int), l ++ NUL :: buffer.drop (l.length + 1), rest, []⟩ := by
  unfold ReadLine
  have h := ReadLine_loop_stop (512 - 1) false l t rest buffer 0 [] hl.2
    (by have := hl.1; push_cast; omega) (Or.inl ht) (by have := hl.1; omega)
  simpa using h

/-- One test of `WaitForOkAck` on the buffer `ReadLine` left is the test `beginsWith`
on the line. -/
theorem test_iff (pat l tail : List Char) (hp : NUL ∉ pat) (hlow : pat.map tolower = pat) :
    ((l.length : Int) ≥ (pat.length : Int) ∧ strncasecmp (l ++ tail) pat pat.length = 0) ↔
      beginsWith pat l := by
  rw [strncasecmp_eq_zero pat hp, hlow]
  unfold beginsWith
  constructor
  · rintro ⟨h1, _, h3⟩
    have h1 : pat.length ≤ l.length := by omega
    rw [List.take_append_of_le_length h1] at h3
    exact ⟨h1, h3⟩
  · rintro ⟨h1, h3⟩
    rw [List.take_append_of_le_length h1]
    exact ⟨by omega, by rw [List.length_append]; omega, h3⟩

/-- One iteration of the loop of `WaitForOkAck` on a response line. -/
theorem WaitForOkAck_loop_line (fuel : Nat) (l : List Char) (t : Char) (rest : Channel)
    (buffer : List Char) (reads : Nat)
    (hl : responseLine l) (ht : isTerminator t) (hb : buffer.length = 512) :
    WaitForOkAck.loop (fuel + 1) (l.map some ++ some t :: rest) buffer reads =
      if isAck l then some ⟨true, rest, reads + 1⟩
      else if isError l then some ⟨false, rest, reads + 1⟩
      else WaitForOkAck.loop fuel rest (l ++ NUL :: buffer.drop (l.length + 1)) (reads + 1) := by
  conv_lhs => unfold WaitForOkAck.loop
  simp only [ReadLine_line l t rest buffer hl ht hb]
  have h0 : ¬ ((l.length : Int) < 0) := by omega
  have hok := test_iff ['o', 'k'] l (NUL :: buffer.drop (l.length + 1)) (by decide) (by decide)
  have hrs := test_iff ['r', 's'] l (NUL :: buffer.drop (l.length + 1)) (by decide) (by decide)
  have hbb := test_iff ['!', '!'] l (NUL :: buffer.drop (l.length + 1)) (by decide) (by decide)
  have her := test_iff ['e', 'r', 'r', 'o', 'r'] l (NUL :: buffer.drop (l.length + 1))
    (by decide) (by decide)
  have hfa := test_iff ['f', 'a', 't', 'a', 'l'] l (NUL :: buffer.drop (l.length + 1))
    (by decide) (by decide)
  have hre := test_iff ['r', 'e', 's', 'e', 'n', 'd'] l (NUL :: buffer.drop (l.length + 1))
    (by decide) (by decide)
  simp only [List.length_cons, List.length_nil, Nat.zero_add, Nat.reduceAdd, Nat.cast_ofNat] at *
  simp only [h0, if_false, hok, hrs, hbb, her, hfa, hre]
  by_cases ha : isAck l
  · have ha2 : beginsWith ['o', 'k'] l := ha
    simp only [ha, ha2, if_true]
  · have ha2 : ¬ beginsWith ['o', 'k'] l := ha
    simp only [ha, ha2, if_false]
    by_cases he : isError l
    · have he2 := he
      unfold isError at he2
      simp only [he, he2, if_true]
    · have he2 := he
      unfold isError at he2
      simp only [he, he2, if_false]

/-- Every framed line takes at least one byte of the channel. -/
theorem frames_length (pre : List (List Char × Char)) : pre.length ≤ (pre.flatMap frame).length := by
  induction pre with
  | nil => simp
  | cons p pre ih =>
    simp only [List.flatMap_cons, List.length_append, List.length_cons, frame, List.length_map,
      List.length_nil]
    omega

/-- The loop of `WaitForOkAck` skips the lines that are neither acknowledgement nor
error and decides at the first line that is one. -/
theorem WaitForOkAck_loop_decides (pre : List (List Char × Char)) (d : List Char) (t : Char)
    (rest : Channel) (fuel : Nat) (buffer : List Char) (reads : Nat)
    (hpre : ∀ p ∈ pre, responseLine p.1 ∧ isTerminator p.2 ∧ ¬ isAck p.1 ∧ ¬ isError p.1)
    (hd : responseLine d) (ht : isTerminator t) (hdec : isAck d ∨ isError d)
    (hfuel : pre.length + 1 ≤ fuel) (hb : buffer.length = 512) :
    WaitForOkAck.loop fuel (pre.flatMap frame ++ frame (d, t) ++ rest) buffer reads =
      some ⟨decide (isAck d), rest, reads + pre.length + 1⟩ := by
  induction pre generalizing fuel buffer reads with
  | nil =>
    obtain ⟨fuel, rfl⟩ : ∃ f, fuel = f + 1 := ⟨fuel - 1, by simp at hfuel; omega⟩
    simp only [List.flatMap_nil, List.nil_append, frame, List.append_assoc, List.singleton_append,
      List.length_nil, Nat.add_zero]
    rw [WaitForOkAck_loop_line fuel d t rest buffer reads hd ht hb]
    by_cases ha : isAck d
    · simp [ha]
    · have he : isError d := hdec.resolve_left ha
      simp [ha, he]
  | cons p pre ih =>
    obtain ⟨fuel, rfl⟩ : ∃ f, fuel = f + 1 := ⟨fuel - 1, by simp at hfuel; omega⟩
    obtain ⟨h1, h2, h3, h4⟩ := hpre p (List.mem_cons_self _ _)
    have hpre2 : ∀ q ∈ pre, responseLine q.1 ∧ isTerminator q.2 ∧ ¬ isAck q.1 ∧ ¬ isError q.1 :=
      fun q hq => hpre q (List.mem_cons_of_mem _ hq)
    have e : (p :: pre).flatMap frame ++ frame (d, t) ++ rest =
        p.1.map some ++ some p.2 :: (pre.flatMap frame ++ frame (d, t) ++ rest) := by
      simp [frame]
    rw [e, WaitForOkAck_loop_line fuel p.1 p.2 _ buffer reads h1 h2 hb]
    simp only [h3, h4, if_false]
    rw [ih fuel _ (reads + 1) hpre2 (by simp at hfuel; omega)
      (by simp [List.length_drop, hb]; have := h1.1; omega)]
    simp only [List.length_cons, Option.some.injEq, AckResult.mk.injEq, true_and]
    omega

/-- The loop of `WaitForOkAck` skips the lines that are neither acknowledgement nor
error and returns false at a read that fails. -/
theorem WaitForOkAck_loop_fails (pre : List (List Char × Char)) (p : List Char)
    (tail : Channel) (fuel : Nat) (buffer : List Char) (reads : Nat)
    (hpre : ∀ q ∈ pre, responseLine q.1 ∧ isTerminator q.2 ∧ ¬ isAck q.1 ∧ ¬ isError q.1)
    (hp : responseLine p) (htail : tail = [] ∨ ∃ rest, tail = none :: rest)
    (hfuel : pre.length + 1 ≤ fuel) (hb : buffer.length = 512) :
    WaitForOkAck.loop fuel (pre.flatMap frame ++ p.map some ++ tail) buffer reads =
      some ⟨false, tail.tail, reads + pre.length + 1⟩ := by
  induction pre generalizing fuel buffer reads with
  | nil =>
    obtain ⟨fuel, rfl⟩ : ∃ f, fuel = f + 1 := ⟨fuel - 1, by simp at hfuel; omega⟩
    simp only [List.flatMap_nil, List.nil_append, List.length_nil, Nat.add_zero]
    have h := ReadLine_loop_fail (512 - 1) false p tail buffer 0 [] hp.2
      (by have := hp.1; push_cast; omega) htail
    unfold WaitForOkAck.loop ReadLine
    simp only [h.1, h.2]
    simp
  | cons q pre ih =>
    obtain ⟨fuel, rfl⟩ : ∃ f, fuel = f + 1 := ⟨fuel - 1, by simp at hfuel; omega⟩
    obtain ⟨h1, h2, h3, h4⟩ := hpre q (List.mem_cons_self _ _)
    have hpre2 : ∀ r ∈ pre, responseLine r.1 ∧ isTerminator r.2 ∧ ¬ isAck r.1 ∧ ¬ isError r.1 :=
      fun r hr => hpre r (List.mem_cons_of_mem _ hr)
    have e : (q :: pre).flatMap frame ++ p.map some ++ tail =
        q.1.map some ++ some q.2 :: (pre.flatMap frame ++ p.map some ++ tail) := by
      simp [frame]
    rw [e, WaitForOkAck_loop_line fuel q.1 q.2 _ buffer reads h1 h2 hb]
    simp only [h3, h4, if_false]
    rw [ih fuel _ (reads + 1) hpre2 (by simp at hfuel; omega)
      (by simp [List.length_drop, hb]; have := h1.1; omega)]
    simp only [List.length_cons, Option.some.injEq, AckResult.mk.injEq, true_and]
    omega

/-- With more fuel than the channel has entries the loop of `WaitForOkAck` returns. -/
theorem WaitForOkAck_loop_total (fuel : Nat) (fd : Channel) (buffer : List Char) (reads : Nat)
    (h : fd.length < fuel) : ∃ a, WaitForOkAck.loop fuel fd buffer reads = some a := by
  induction fuel generalizing fd buffer reads with
  | zero => omega
  | succ fuel ih =>
    unfold WaitForOkAck.loop
    simp only
    split
    · exact ⟨_, rfl⟩
    · rename_i hneg
      split
      · exact ⟨_, rfl⟩
      · split
        · exact ⟨_, rfl⟩
        · apply ih
          have := (ReadLine_loop_fd_length (512 - 1) false fd buffer 0 []).2
            (by unfold ReadLine at hneg; omega)
          unfold ReadLine
          omega

/-- The function `WaitForOkAck` returns on every channel. -/
theorem WaitForOkAck_total (fd : Channel) : ∃ a, WaitForOkAck fd = some a :=
  WaitForOkAck_loop_total _ fd _ 0 (Nat.lt_succ_self _)

/-- The bytes taken in a sequence of calls, call by call. -/
theorem accepted_cons (buf : List Char) (w : Int) (calls : List (List Char × Int)) :
    accepted ((buf, w) :: calls) = buf.take w.toNat ++ accepted calls := by
  simp [accepted]

/-- On a transport whose writes do not fail `reliable_write` returns true and the
transport has taken the whole buffer. -/
theorem reliable_write_ok (wr : List (Option Nat)) (buffer : List Char)
    (h : none ∉ wr) :
    (reliable_write wr buffer).ret = true ∧
      accepted (reliable_write wr buffer).calls = buffer ∧
      none ∉ (reliable_write wr buffer).wr := by
  induction wr generalizing buffer with
  | nil =>
    cases buffer with
    | nil => simp [reliable_write, accepted]
    | cons b bs => simp [reliable_write, accepted]
  | cons e wr ih =>
    cases buffer with
    | nil => simpa [reliable_write, accepted] using h
    | cons b bs =>
      cases e with
      | none => simp at h
      | some k =>
        have hwr : none ∉ wr := fun hm => h (List.mem_cons_of_mem _ hm)
        obtain ⟨h1, h2, h3⟩ := ih (List.drop (min k (b :: bs).length) (b :: bs)) hwr
        refine ⟨by simpa [reliable_write] using h1, ?_, by simpa [reliable_write] using h3⟩
        simp only [reliable_write, accepted_cons, h2, Int.toNat_ofNat]
        rw [List.take_append_drop]

/-- The first `c` of a string that has none before it. -/
theorem strchr_append (h : List Char) (c : Char) (p : List Char) (hc : c ∉ h) :
    strchr (h ++ c :: p) c = some (c :: p) := by
  induction h with
  | nil => simp [strchr]
  | cons x xs ih =>
    have hx : x ≠ c := fun e => hc (e ▸ List.mem_cons_self _ _)
    have hxs : c ∉ xs := fun m => hc (List.mem_cons_of_mem _ m)
    simp [strchr, hx, ih hxs]

/-- There is no `c` to find in a string without `c`. -/
theorem strchr_none (s : List Char) (c : Char) (hc : c ∉ s) : strchr s c = none := by
  induction s with
  | nil => rfl
  | cons x xs ih =>
    have hx : x ≠ c := fun e => hc (e ▸ List.mem_cons_self _ _)
    have hxs : c ∉ xs := fun m => hc (List.mem_cons_of_mem _ m)
    simp [strchr, hx, ih hxs]

/-- The call of `getline` on the last piece of the file: it reaches the end of the
file. -/
theorem getline_last (l line : List Char) (hl : '\n' ∉ l) :
    getline ⟨l, false, false⟩ line = (⟨[], true, l.isEmpty⟩, l) := by
  simp [getline, strchr_none l '\n' hl]

/-- The call of `getline` on a piece that a newline ends. -/
theorem getline_more (l rest line : List Char) (hl : '\n' ∉ l) :
    getline ⟨l ++ '\n' :: rest, false, false⟩ line = (⟨rest, false, false⟩, l) := by
  simp [getline, strchr_append l '\n' rest hl]

/-- One iteration of the send loop on the line `getline` yields, when no write fails. -/
theorem main_loop_line (fuel : Nat) (s : Session) (input : ifstream) (l : List Char)
    (heof : s.input.eofbit = false) (hget : getline s.input s.line = (input, l))
    (hwr : none ∉ s.wr) :
    ∃ s2, main.loop (fuel + 1) s = main.loop fuel s2 ∧ s2.input = input ∧
      s2.line_count = s.line_count + 1 ∧
      s2.lines_sent = s.lines_sent + (if preprocess l = [] then 0 else 1) ∧
      s2.sent = s.sent ++ payload l ∧
      s2.k.calls.filterMap Call.sendEvent = s.k.calls.filterMap Call.sendEvent ++ lineEvents l ∧
      s2.k.fds = s.k.fds ∧ s2.machine_fd = s.machine_fd ∧ none ∉ s2.wr := by
  conv => enter [1, s2, 1, 1]; unfold main.loop
  simp only [heof, hget, Bool.false_eq_true, if_false]
  by_cases hP : preprocess l = []
  · refine ⟨{ s with input := input, line_count := s.line_count + 1, line := preprocess l }, ?_⟩
    simp [hP, payload, lineEvents, hwr]
  · obtain ⟨hw1, hw2, hw3⟩ := reliable_write_ok s.wr (preprocess l ++ ['\n']) hwr
    have hE : (preprocess l).isEmpty = false := by
      cases hp : preprocess l with
      | nil => exact absurd hp hP
      | cons _ _ => rfl
    simp only [hE, Bool.false_eq_true, if_false, hw1, Bool.not_true]
    obtain ⟨a, ha⟩ := WaitForOkAck_total s.rd
    simp only [ha]
    cases har : a.ret with
    | true =>
      refine ⟨_, rfl, ?_⟩
      simp [hP, payload, lineEvents, hw2, hw3, Kernel.call, Call.sendEvent, har]
    | false =>
      refine ⟨_, rfl, ?_⟩
      simp [hP, payload, lineEvents, hw2, hw3, Kernel.call, Call.sendEvent, har]

/-- A text has at least one byte less than it has pieces. -/
theorem joinLines_length (lines : List (List Char)) : lines.length ≤ (joinLines lines).length + 1 := by
  induction lines with
  | nil => simp
  | cons l ls ih =>
    cases ls with
    | nil => simp [joinLines]
    | cons l2 ls =>
      simp only [joinLines, List.length_cons, List.length_append] at ih ⊢
      omega

/-- The send loop on the pieces of a text, when no write fails: it ends normally after
one iteration for each piece. -/
theorem main_loop_lines (lines : List (List Char)) (fuel : Nat) (s : Session)
    (hne : lines ≠ []) (hnl : ∀ l ∈ lines, '\n' ∉ l)
    (hin : s.input = ⟨joinLines lines, false, false⟩) (hwr : none ∉ s.wr)
    (hfuel : lines.length + 1 ≤ fuel) :
    ∃ f, main.loop fuel s = some ⟨0, f⟩ ∧
      f.line_count = s.line_count + lines.length ∧
      f.lines_sent = s.lines_sent + (lines.filter (fun l => preprocess l ≠ [])).length ∧
      f.sent = s.sent ++ lines.flatMap payload ∧
      f.k.calls.filterMap Call.sendEvent =
        s.k.calls.filterMap Call.sendEvent ++ lines.flatMap lineEvents ∧
      f.k.fds = s.k.fds.filter (· ≠ s.machine_fd) ∧ f.machine_fd = s.machine_fd := by
  induction lines generalizing fuel s with
  | nil => exact absurd rfl hne
  | cons l ls ih =>
    obtain ⟨fuel, rfl⟩ : ∃ f, fuel = f + 1 := ⟨fuel - 1, by simp at hfuel; omega⟩
    have hl : '\n' ∉ l := hnl l (List.mem_cons_self _ _)
    have heof : s.input.eofbit = false := by rw [hin]
    cases ls with
    | nil =>
      have hget : getline s.input s.line = (⟨[], true, l.isEmpty⟩, l) := by
        rw [hin]; exact getline_last l s.line hl
      obtain ⟨s2, h1, h2, h3, h4, h5, h6, h7, h8, -⟩ := main_loop_line fuel s _ l heof hget hwr
      obtain ⟨fuel, rfl⟩ : ∃ f, fuel = f + 1 := ⟨fuel - 1, by simp at hfuel; omega⟩
      refine ⟨{ s2 with k := s2.k.close s2.machine_fd }, ?_, ?_⟩
      · rw [h1]
        unfold main.loop
        simp [h2]
      · by_cases hP : preprocess l = []
        · simp [h3, h4, h5, h6, h7, h8, hP, Kernel.close, Call.sendEvent]
        · simp [h3, h4, h5, h6, h7, h8, hP, Kernel.close, Call.sendEvent]
    | cons l2 ls =>
      have hget : getline s.input s.line = (⟨joinLines (l2 :: ls), false, false⟩, l) := by
        rw [hin]; exact getline_more l _ s.line hl
      obtain ⟨s2, h1, h2, h3, h4, h5, h6, h7, h8, h9⟩ := main_loop_line fuel s _ l heof hget hwr
      obtain ⟨f, g1, g2, g3, g4, g5, g6, g7⟩ := ih fuel s2 (by simp)
        (fun x hx => hnl x (List.mem_cons_of_mem _ hx)) h2 h9 (by simp at hfuel ⊢; omega)
      refine ⟨f, by rw [h1, g1], ?_⟩
      rw [g2, g3, g4, g5, g6, g7, h3, h4, h5, h6, h7, h8]
      refine ⟨?_, ?_, ?_, ?_, rfl, rfl⟩
      · simp only [List.length_cons]; push_cast; omega
      · by_cases hP : preprocess l = []
        · simp [hP]
        · simp [hP]; omega
      · simp
      · simp

/-- The function `SetTTYParams` makes no call on the transport. -/
theorem SetTTYParams_sendEvents (env : Env) (k : Kernel) (fd : Int) (params : List Char) :
    (SetTTYParams env k fd params).2.calls.filterMap Call.sendEvent =
      k.calls.filterMap Call.sendEvent := by
  unfold SetTTYParams
  cases SetTTYParams.speed params with
  | none => rfl
  | some speed =>
    simp only
    cases env.tcgetattr fd <;> cases env.tcsetattr fd speed <;>
      simp [Kernel.call, Call.sendEvent]

/-- Recording an open descriptor records no call. -/
theorem opened_calls (k : Kernel) (fd : Int) : (k.opened fd).calls = k.calls := by
  unfold Kernel.opened; split <;> rfl

/-- The function `OpenTTY` makes no call on the transport. -/
theorem OpenTTY_sendEvents (env : Env) (k : Kernel) (d : List Char) :
    (OpenTTY env k d).2.calls.filterMap Call.sendEvent = k.calls.filterMap Call.sendEvent := by
  unfold OpenTTY
  simp only
  split
  · simp [opened_calls, Kernel.call, Call.sendEvent]
  · split
    · simp [SetTTYParams_sendEvents, opened_calls, Kernel.call, Call.sendEvent]
    · simp [SetTTYParams_sendEvents, opened_calls, Kernel.call, Call.sendEvent]

/-- The function `OpenTCPSocket` makes no call on the transport. -/
theorem OpenTCPSocket_sendEvents (env : Env) (k : Kernel) (d : List Char) :
    (OpenTCPSocket env k d).2.calls.filterMap Call.sendEvent =
      k.calls.filterMap Call.sendEvent := by
  unfold OpenTCPSocket
  simp only
  split <;> split <;> (try split) <;> (try split) <;>
    simp [opened_calls, Kernel.call, Kernel.close, Call.sendEvent]

/-- The function `OpenMachineConnection` makes no call on the transport. -/
theorem OpenMachineConnection_sendEvents (env : Env) (k : Kernel) (d : Option (List Char)) :
    (OpenMachineConnection env k d).2.calls.filterMap Call.sendEvent =
      k.calls.filterMap Call.sendEvent := by
  unfold OpenMachineConnection
  cases d with
  | none => rfl
  | some d =>
    simp only
    split
    · exact OpenTTY_sendEvents env k d
    · rw [OpenTCPSocket_sendEvents, OpenTTY_sendEvents]

/-- A run of `main` on the pieces of a text, when the transport opens and no write
fails: the exit status, the counters, the bytes taken by the transport, the events on
it, and the handle, which is closed at the exit. -/
theorem main_run (env : Env) (filename : List Char) (connect_str : Option (List Char))
    (lines : List (List Char))
    (hfile : env.file filename = some (joinLines lines))
    (hne : lines ≠ []) (hnl : ∀ l ∈ lines, '\n' ∉ l)
    (hopen : 0 ≤ (OpenMachineConnection env ⟨[], []⟩ (some (descriptorOf connect_str))).1)
    (hwr : none ∉ env.wr) :
    ∃ o, main env filename connect_str = some o ∧ o.code = 0 ∧
      o.s.line_count = lines.length ∧
      o.s.lines_sent = (lines.filter (fun l => preprocess l ≠ [])).length ∧
      o.s.sent = lines.flatMap payload ∧
      o.s.k.calls.filterMap Call.sendEvent = lines.flatMap lineEvents ∧
      o.s.machine_fd = (OpenMachineConnection env ⟨[], []⟩ (some (descriptorOf connect_str))).1 ∧
      o.s.machine_fd ∉ o.s.k.fds := by
  unfold descriptorOf at hopen
  have hlen := joinLines_length lines
  obtain ⟨f, h1, h2, h3, h4, h5, h6, h7⟩ := main_loop_lines lines ((joinLines lines).length + 2)
    ⟨⟨joinLines lines, false, false⟩, [], 0, 0,
      (OpenMachineConnection env ⟨[], []⟩ (some (descriptorOf connect_str))).1, env.rd, env.wr, [],
      (OpenMachineConnection env ⟨[], []⟩ (some (descriptorOf connect_str))).2⟩
    hne hnl rfl hwr (by omega)
  refine ⟨⟨0, f⟩, ?_, rfl, ?_, ?_, ?_, ?_, ?_, ?_⟩
  · unfold main
    simp only [hfile, ifstream.fromFile]
    rw [if_neg (by omega)]
    exact h1
  · simpa using h2
  · simpa using h3
  · simpa using h4
  · rw [h5, OpenMachineConnection_sendEvents]; simp
  · exact h7
  · simp only at h6 h7 ⊢
    rw [h6, h7]
    simp

/-- Every text is the text of its pieces between newlines, and there is at least one
piece. -/
theorem joinLines_split (text : List Char) :
    ∃ lines, lines ≠ [] ∧ (∀ l ∈ lines, '\n' ∉ l) ∧ joinLines lines = text := by
  induction text with
  | nil => exact ⟨[[]], by simp, by simp, rfl⟩
  | cons c cs ih =>
    obtain ⟨lines, hne, hnl, hj⟩ := ih
    cases lines with
    | nil => exact absurd rfl hne
    | cons l0 rest =>
      by_cases hc : c = '\n'
      · refine ⟨[] :: l0 :: rest, by simp, ?_, ?_⟩
        · intro l hl
          rcases List.mem_cons.mp hl with h | h
          · subst h; simp
          · exact hnl l h
        · rw [← hj, hc]; rfl
      · refine ⟨(c :: l0) :: rest, by simp, ?_, ?_⟩
        · intro l hl
          rcases List.mem_cons.mp hl with h | h
          · subst h
            intro hm
            rcases List.mem_cons.mp hm with e | m
            · exact hc e.symm
            · exact hnl l0 (List.mem_cons_self _ _) m
          · exact hnl l (List.mem_cons_of_mem _ h)
        · rw [← hj]
          cases rest with
          | nil => rfl
          | cons l1 rest => rfl

/-- A run of `main` on an opened file returns, with status 0, whenever the transport
opens and no write fails. -/
theorem main_total (env : Env) (filename : List Char) (connect_str : Option (List Char))
    (text : List Char) (hfile : env.file filename = some text)
    (hopen : 0 ≤ (OpenMachineConnection env ⟨[], []⟩ (some (descriptorOf connect_str))).1)
    (hwr : none ∉ env.wr) :
    ∃ o, main env filename connect_str = some o ∧ o.code = 0 := by
  obtain ⟨lines, hne, hnl, hj⟩ := joinLines_split text
  obtain ⟨o, h1, h2, -⟩ :=
    main_run env filename connect_str lines (by rw [hj]; exact hfile) hne hnl hopen hwr
  exact ⟨o, h1, h2⟩

/-- The error exit of the send loop: when the write of a line fails, `main` returns 1 at
once; the set of open descriptors is the one before the iteration, and the
only call recorded is the failed `reliable_write`. -/
theorem main_loop_send_error (fuel : Nat) (s : Session) (input : ifstream) (l : List Char)
    (heof : s.input.eofbit = false) (hget : getline s.input s.line = (input, l))
    (hP : preprocess l ≠ [])
    (hw : (reliable_write s.wr (preprocess l ++ ['\n'])).ret = false) :
    ∃ f, main.loop (fuel + 1) s = some ⟨1, f⟩ ∧ f.k.fds = s.k.fds ∧
      f.k.calls = s.k.calls ++ [Call.reliable_write (preprocess l ++ ['\n']) false] ∧
      f.machine_fd = s.machine_fd := by
  have hE : (preprocess l).isEmpty = false := by
    cases hp : preprocess l with
    | nil => exact absurd hp hP
    | cons _ _ => rfl
  unfold main.loop
  simp only [heof, hget, Bool.false_eq_true, if_false, hE, hw, Bool.not_false, if_true]
  exact ⟨_, rfl, rfl, rfl, rfl⟩

/-- A text of lines each ended by a newline has one more piece than lines, the empty
piece after the last newline. -/
theorem joinLines_terminated (ls : List (List Char)) :
    joinLines (ls ++ [[]]) = ls.flatMap (· ++ ['\n']) := by
  induction ls with
  | nil => rfl
  | cons l ls ih =>
    cases ls with
    | nil => simp [joinLines]
    | cons l2 ls =>
      have e : joinLines ((l :: l2 :: ls) ++ [[]]) =
          l ++ '\n' :: joinLines ((l2 :: ls) ++ [[]]) := rfl
      rw [e, ih]
      simp

/-- The counters at the end of a session on a text of `n` lines, each ended by a
newline, when the transport is open and no write fails: `lines_sent` is the
number of lines whose preprocessed form is not empty, and `line_count` is
`n + 1`, the empty piece after the last newline being counted as a line. -/
theorem main_counts (env : Env) (filename : List Char) (connect_str : Option (List Char))
    (ls : List (List Char))
    (hfile : env.file filename = some (ls.flatMap (· ++ ['\n'])))
    (hnl : ∀ l ∈ ls, '\n' ∉ l)
    (hopen : 0 ≤ (OpenMachineConnection env ⟨[], []⟩ (some (descriptorOf connect_str))).1)
    (hwr : none ∉ env.wr) :
    ∃ o, main env filename connect_str = some o ∧ o.code = 0 ∧
      o.s.line_count = ls.length + 1 ∧
      o.s.lines_sent = (ls.filter (fun l => preprocess l ≠ [])).length := by
  obtain ⟨o, h1, h2, h3, h4, -, -, -, -⟩ :=
    main_run env filename connect_str (ls ++ [[]])
      (by rw [joinLines_terminated]; exact hfile) (by simp)
      (by
        intro l hl
        rcases List.mem_append.mp hl with h | h
        · exact hnl l h
        · simp only [List.mem_singleton] at h
          subst h
          simp)
      hopen hwr
  refine ⟨o, h1, h2, ?_, ?_⟩
  · rw [h3]; simp
  · rw [h4, List.filter_append]
    have : preprocess [] = [] := by decide
    simp [this]

/-- No chunk covers no byte. -/
theorem chunks_zero (N : Nat) (hN : 1 ≤ N) : chunks 0 N = 0 := by
  unfold chunks
  apply Nat.div_eq_of_lt
  omega

/-- One chunk less covers what is left after a write. -/
theorem chunks_step (L N : Nat) (hN : 1 ≤ N) (hL : 1 ≤ L) :
    chunks L N = chunks (L - min N L) N + 1 := by
  unfold chunks
  rcases Nat.le_total L N with h | h
  · rw [Nat.min_eq_right h]
    have e1 : (L - L + N - 1) / N = 0 := Nat.div_eq_of_lt (by omega)
    have e2 : (L + N - 1) / N = 1 := by
      apply Nat.div_eq_of_lt_le <;> omega
    omega
  · rw [Nat.min_eq_left h]
    have : L + N - 1 = (L - N + N - 1) + N := by omega
    rw [this, Nat.add_div_right _ (by omega)]

/-- The function `reliable_write` on a transport that takes `N` bytes at a time. -/
theorem reliable_write_chunks (N : Nat) (hN : 1 ≤ N) (m : Nat) (payload : List Char)
    (rest : List (Option Nat)) (hm : m = chunks payload.length N) :
    (reliable_write (List.replicate m (some N) ++ rest) payload).ret = true ∧
    (reliable_write (List.replicate m (some N) ++ rest) payload).wr = rest ∧
    (reliable_write (List.replicate m (some N) ++ rest) payload).calls.length = m ∧
      (∀ i, i < m → (reliable_write (List.replicate m (some N) ++ rest) payload).calls.get? i =
        some (payload.drop (i * N), ((min N (payload.length - i * N) : Nat) : Int))) ∧
      accepted (reliable_write (List.replicate m (some N) ++ rest) payload).calls = payload := by
  induction m generalizing payload with
  | zero =>
    cases payload with
    | nil => simp [reliable_write, accepted]
    | cons b bs =>
      exfalso
      rw [chunks_step _ N hN (by simp)] at hm
      omega
  | succ m ih =>
    cases payload with
    | nil => rw [List.length_nil, chunks_zero N hN] at hm; omega
    | cons b bs =>
      have hstep := chunks_step (b :: bs).length N hN (by simp)
      have hm2 : m = chunks (List.drop (min N (b :: bs).length) (b :: bs)).length N := by
        rw [List.length_drop]; omega
      obtain ⟨h1, h2, h3, h4, h5⟩ := ih (List.drop (min N (b :: bs).length) (b :: bs)) hm2
      generalize hr : reliable_write (List.replicate m (some N) ++ rest)
        (List.drop (min N (b :: bs).length) (b :: bs)) = r at h1 h2 h3 h4 h5
      have e : reliable_write (List.replicate (m + 1) (some N) ++ rest) (b :: bs) =
          ⟨r.ret, r.wr, (b :: bs, ((min N (b :: bs).length : Nat) : Int)) :: r.calls⟩ := by
        rw [← hr]; rfl
      rw [e]
      refine ⟨h1, h2, by simp [h3], ?_, ?_⟩
      · intro i hi
        cases i with
        | zero => simp
        | succ i =>
          rw [List.get?_cons_succ, h4 i (by omega)]
          simp only [List.drop_drop, List.length_drop, Option.some.injEq, Prod.mk.injEq]
          rcases Nat.le_total N (b :: bs).length with hle | hle
          · rw [Nat.min_eq_left hle]
            constructor
            · congr 1; ring
            · congr 2; rw [Nat.succ_mul]; omega
          · exfalso
            rw [Nat.min_eq_right hle] at hm2
            simp only [List.drop_length, List.length_nil] at hm2
            rw [chunks_zero N hN] at hm2
            omega
      · rw [accepted_cons, h5, Int.toNat_ofNat, List.take_append_drop]

/-- The digit loop of `atoi` on a string of digits. -/
theorem atoi_digits_eq (r : List Char) (acc : Nat) (h : ∀ c ∈ r, isdigit c = true) :
    atoi.digits r (acc : Int) = ((r.foldl (fun a c => 10 * a + (c.toNat - 48)) acc : Nat) : Int) := by
  induction r generalizing acc with
  | nil => rfl
  | cons c cs ih =>
    have hc := h c (List.mem_cons_self _ _)
    have hcs : ∀ x ∈ cs, isdigit x = true := fun x hx => h x (List.mem_cons_of_mem _ hx)
    unfold atoi.digits
    simp only [hc, if_true, List.foldl_cons]
    rw [← ih (10 * acc + (c.toNat - 48)) hcs]
    congr 1
    have : 48 ≤ c.toNat := by
      unfold isdigit at hc
      simp only [Bool.and_eq_true, decide_eq_true_eq] at hc
      exact hc.1
    push_cast
    omega

/-- A digit is no white space, sign, baud letter or NUL. -/
theorem isdigit_facts (c : Char) (h : isdigit c = true) :
    isspace c = false ∧ c ≠ '-' ∧ c ≠ '+' ∧ c ≠ 'b' ∧ c ≠ 'B' ∧ c ≠ NUL := by
  unfold isdigit at h
  simp only [Bool.and_eq_true, decide_eq_true_eq] at h
  refine ⟨?_, ?_, ?_, ?_, ?_, ?_⟩
  · unfold isspace
    simp only [Bool.or_eq_false_iff, beq_eq_false_iff_ne, ne_eq, Bool.and_eq_false_iff,
      decide_eq_false_iff_not]
    omega
  all_goals
    intro hc
    subst hc
    revert h
    decide

/-- On a string of digits `atoi` is the number it writes. -/
theorem atoi_eq_decimalValue (r : List Char) (h : ∀ c ∈ r, isdigit c = true) :
    atoi r = (decimalValue r : Int) := by
  cases r with
  | nil => rfl
  | cons c cs =>
    obtain ⟨h1, h2, h3, -, -, -⟩ := isdigit_facts c (h c (List.mem_cons_self _ _))
    unfold atoi
    rw [List.dropWhile_cons, if_neg (by simp [h1])]
    split
    · rename_i heq; simp only [List.cons.injEq] at heq; exact absurd heq.1 h2
    · rename_i heq; simp only [List.cons.injEq] at heq; exact absurd heq.1 h3
    · exact atoi_digits_eq (c :: cs) 0 h

/-- The speed selected by a string of digits. -/
theorem speed_of_digits (r : List Char) (hr : r ≠ []) (h : ∀ c ∈ r, isdigit c = true) :
    SetTTYParams.speed r =
      if decimalValue r = 9600 then some .B9600
      else if decimalValue r = 19200 then some .B19200
      else if decimalValue r = 38400 then some .B38400
      else if decimalValue r = 57600 then some .B57600
      else if decimalValue r = 115200 then some .B115200
      else if decimalValue r = 230400 then some .B230400
      else if decimalValue r = 460800 then some .B460800
      else none := by
  cases r with
  | nil => exact absurd rfl hr
  | cons c cs =>
    obtain ⟨-, -, -, h4, h5, h6⟩ := isdigit_facts c (h c (List.mem_cons_self _ _))
    unfold SetTTYParams.speed
    simp only [List.headD_cons, h4, h5, or_self, if_false, ne_eq, h6, not_false_eq_true, if_true]
    rw [atoi_eq_decimalValue (c :: cs) h]
    norm_cast

/-- A string of digits whose value is none of the seven rates selects no speed, with
or without the baud letter. -/
theorem speed_invalid (r : List Char) (hr : r ≠ []) (h : ∀ c ∈ r, isdigit c = true)
    (hv : ∀ v : speed_t, v.baud ≠ decimalValue r) :
    SetTTYParams.speed r = none ∧ SetTTYParams.speed ('b' :: r) = none ∧
      SetTTYParams.speed ('B' :: r) = none := by
  have e := speed_of_digits r hr h
  have h1 := hv .B9600
  have h2 := hv .B19200
  have h3 := hv .B38400
  have h4 := hv .B57600
  have h5 := hv .B115200
  have h6 := hv .B230400
  have h7 := hv .B460800
  simp only [speed_t.baud] at h1 h2 h3 h4 h5 h6 h7
  have e0 : SetTTYParams.speed r = none := by
    rw [e]
    simp [Ne.symm h1, Ne.symm h2, Ne.symm h3, Ne.symm h4, Ne.symm h5, Ne.symm h6, Ne.symm h7]
  refine ⟨e0, ?_, ?_⟩
  · rw [← e0]
    cases r with
    | nil => exact absurd rfl hr
    | cons c cs =>
      obtain ⟨-, -, -, h4, h5, h6⟩ := isdigit_facts c (h c (List.mem_cons_self _ _))
      simp [SetTTYParams.speed, h4, h5, h6]
  · rw [← e0]
    cases r with
    | nil => exact absurd rfl hr
    | cons c cs =>
      obtain ⟨-, -, -, h4, h5, h6⟩ := isdigit_facts c (h c (List.mem_cons_self _ _))
      simp [SetTTYParams.speed, h4, h5, h6]

/-- The parts of a list around the first `c`. -/
theorem split_at_first (s : List Char) (c : Char) (hc : c ∈ s) :
    c ∉ s.takeWhile (· ≠ c) ∧ s = s.takeWhile (· ≠ c) ++ c :: (s.dropWhile (· ≠ c)).tail := by
  constructor
  · intro h
    have := List.mem_takeWhile_imp h
    simp at this
  · induction s with
    | nil => simp at hc
    | cons x xs ih =>
      by_cases hx : x = c
      · subst hx; simp
      · have hxs : c ∈ xs := by
          rcases List.mem_cons.mp hc with e | m
          · exact absurd e.symm hx
          · exact m
        have := ih hxs
        rw [List.takeWhile_cons, List.dropWhile_cons]
        simp only [ne_eq, hx, not_false_eq_true, decide_True, if_true, List.cons_append]
        congr 1

/-- The parts of a string before and from its first `c`. -/
theorem takeWhile_first (h : List Char) (c : Char) (p : List Char) (hc : c ∉ h) :
    (h ++ c :: p).takeWhile (· ≠ c) = h ∧ (h ++ c :: p).dropWhile (· ≠ c) = c :: p := by
  induction h with
  | nil => simp
  | cons x xs ih =>
    have hx : x ≠ c := fun e => hc (e ▸ List.mem_cons_self _ _)
    have hxs : c ∉ xs := fun m => hc (List.mem_cons_of_mem _ m)
    obtain ⟨h1, h2⟩ := ih hxs
    constructor
    · rw [List.cons_append, List.takeWhile_cons]
      simp only [ne_eq, hx, not_false_eq_true, decide_True, if_true, List.cons.injEq, true_and]
      exact h1
    · rw [List.cons_append, List.dropWhile_cons]
      simp only [ne_eq, hx, not_false_eq_true, decide_True, if_true]
      exact h2

/-- The host and port of a descriptor with a `:`. -/
theorem tcpTarget_colon (h p : List Char) (hc : ':' ∉ h) : tcpTarget (h ++ ':' :: p) = (h, p) := by
  unfold tcpTarget
  obtain ⟨h1, h2⟩ := takeWhile_first h ':' p hc
  rw [if_pos (by simp), h1, h2]
  rfl

/-- The function `OpenTCPSocket` resolves the host and port of the specification. -/
theorem OpenTCPSocket_eq (env : Env) (k : Kernel) (d : List Char) :
    OpenTCPSocket env k d = tcpConnect env k (tcpTarget d).1 (tcpTarget d).2 := by
  by_cases hc : ':' ∈ d
  · obtain ⟨h1, h2⟩ := split_at_first d ':' hc
    generalize d.takeWhile (· ≠ ':') = h at h1 h2
    generalize (d.dropWhile (· ≠ ':')).tail = p at h2
    subst h2
    rw [tcpTarget_colon h p h1]
    unfold OpenTCPSocket
    rw [strchr_append h ':' p h1]
    simp only [List.length_append, List.length_cons, Nat.add_sub_cancel, List.take_left',
      List.tail_cons]
    rfl
  · unfold OpenTCPSocket tcpTarget
    simp only [strchr_none d ':' hc, hc, if_false]
    rfl

/-- The calls of `OpenTCPSocket` from `getaddrinfo` on: one resolution, first. -/
theorem tcpConnect_calls (env : Env) (k : Kernel) (host port : List Char) :
    ∃ rest, (tcpConnect env k host port).2.calls =
        k.calls ++ Call.getaddrinfo host port (env.getaddrinfo host port) :: rest ∧
      ∀ c ∈ rest, ∀ h p r, c ≠ Call.getaddrinfo h p r := by
  unfold tcpConnect
  cases env.getaddrinfo host port with
  | error => exact ⟨[], by simp [Kernel.call]⟩
  | null => exact ⟨[], by simp [Kernel.call]⟩
  | addr =>
    simp only
    by_cases hs : env.socket ≥ 0
    · have hs2 : ¬ env.socket < 0 := by omega
      by_cases hconn : env.connect env.socket = true
      · refine ⟨[.socket env.socket, .connect env.socket true], ?_, ?_⟩
        · simp [Kernel.call, Kernel.opened, hs, hs2, hconn]
        · intro c hc; simp at hc; rcases hc with rfl | rfl <;> simp
      · refine ⟨[.socket env.socket, .connect env.socket false, .close env.socket], ?_, ?_⟩
        · simp [Kernel.call, Kernel.opened, Kernel.close, hs, hs2, hconn]
        · intro c hc; simp at hc; rcases hc with rfl | rfl | rfl <;> simp
    · have hs2 : env.socket < 0 := by omega
      refine ⟨[.socket env.socket], ?_, ?_⟩
      · simp [Kernel.call, Kernel.opened, hs, hs2]
      · intro c hc; simp at hc; subst hc; simp

/-- The handle of `OpenTCPSocket` is negative exactly when the resolution, the socket
or the connect fails. -/
theorem tcpConnect_negative (env : Env) (k : Kernel) (host port : List Char) :
    (tcpConnect env k host port).1 < 0 ↔
      (env.getaddrinfo host port ≠ .addr ∨ env.socket < 0 ∨ env.connect env.socket = false) := by
  unfold tcpConnect
  cases env.getaddrinfo host port with
  | error => simp
  | null => simp
  | addr =>
    simp only
    by_cases hs : env.socket ≥ 0
    · have hs2 : ¬ env.socket < 0 := by omega
      by_cases hconn : env.connect env.socket = true
      · simp [hs, hs2, hconn]
      · simp [hs, hs2, hconn]
    · have hs2 : env.socket < 0 := by omega
      simp [hs, hs2]

/-- The function `OpenTTY` on a descriptor with a comma. -/
theorem OpenTTY_comma (env : Env) (k : Kernel) (path s : List Char) (hp : ',' ∉ path) :
    OpenTTY env k (path ++ ',' :: s) =
      if env.open_ path < 0 then (-1, (k.call (.open_ path (env.open_ path))).opened (env.open_ path))
      else
        if (SetTTYParams env ((k.call (.open_ path (env.open_ path))).opened (env.open_ path))
            (env.open_ path) s).1
        then (env.open_ path, (SetTTYParams env
          ((k.call (.open_ path (env.open_ path))).opened (env.open_ path)) (env.open_ path) s).2)
        else (-1, (SetTTYParams env
          ((k.call (.open_ path (env.open_ path))).opened (env.open_ path)) (env.open_ path) s).2) := by
  unfold OpenTTY strchrnul
  rw [strchr_append path ',' s hp]
  simp only [Option.getD_some, List.length_append, List.length_cons, Nat.add_sub_cancel,
    List.take_left', List.tail_cons]
  split
  · rfl
  · cases (SetTTYParams env ((k.call (.open_ path (env.open_ path))).opened (env.open_ path))
            (env.open_ path) s).1 <;> rfl

/-- The function `OpenTTY` hands `SetTTYParams` the text after the first comma. -/
theorem OpenTTY_params (env : Env) (k : Kernel) (path s : List Char) (hp : ',' ∉ path)
    (hopen : 0 ≤ env.open_ path) :
    OpenTTY env k (path ++ ',' :: s) =
      (if (SetTTYParams env ((k.call (.open_ path (env.open_ path))).opened (env.open_ path))
            (env.open_ path) s).1 = true then env.open_ path else -1,
        (SetTTYParams env ((k.call (.open_ path (env.open_ path))).opened (env.open_ path))
            (env.open_ path) s).2) := by
  rw [OpenTTY_comma env k path s hp, if_neg (by omega)]
  split <;> rfl

/-- The function `OpenTTY` hands `SetTTYParams` the empty text when the descriptor has
no comma. -/
theorem OpenTTY_no_params (env : Env) (k : Kernel) (path : List Char) (hp : ',' ∉ path)
    (hopen : 0 ≤ env.open_ path) :
    OpenTTY env k path =
      (if (SetTTYParams env ((k.call (.open_ path (env.open_ path))).opened (env.open_ path))
            (env.open_ path) []).1 = true then env.open_ path else -1,
        (SetTTYParams env ((k.call (.open_ path (env.open_ path))).opened (env.open_ path))
            (env.open_ path) []).2) := by
  unfold OpenTTY strchrnul
  rw [strchr_none path ',' hp]
  simp only [Option.getD_none, List.length_nil, Nat.sub_zero, List.take_length, List.tail_nil]
  rw [if_neg (by omega)]
  cases (SetTTYParams env ((k.call (.open_ path (env.open_ path))).opened (env.open_ path))
            (env.open_ path) []).1 <;> rfl

/-- When no speed is selected `SetTTYParams` returns false and makes no call. -/
theorem SetTTYParams_rejects (env : Env) (k : Kernel) (fd : Int) (params : List Char)
    (h : SetTTYParams.speed params = none) : SetTTYParams env k fd params = (false, k) := by
  unfold SetTTYParams
  rw [h]

/-- The speed selected is the one `SetTTYParams` sets. -/
theorem SetTTYParams_selects (env : Env) (k : Kernel) (fd : Int) (params : List Char) (v : speed_t)
    (h : SetTTYParams.speed params = some v) (hget : env.tcgetattr fd = true) :
    SetTTYParams env k fd params =
      (env.tcsetattr fd v, (k.call (.tcgetattr fd true)).call (.tcsetattr fd v (env.tcsetattr fd v))) := by
  unfold SetTTYParams
  rw [h]
  simp only [hget, Bool.not_true, Bool.false_eq_true, if_false]
  cases env.tcsetattr fd v <;> rfl

/-- The speed of a rate, rate by rate. -/
theorem speedOfRate_eq (n : Int) :
    speedOfRate n =
      if n = 9600 then some .B9600
      else if n = 19200 then some .B19200
      else if n = 38400 then some .B38400
      else if n = 57600 then some .B57600
      else if n = 115200 then some .B115200
      else if n = 230400 then some .B230400
      else if n = 460800 then some .B460800
      else none := by
  unfold speedOfRate
  simp only [List.find?, speed_t.baud]
  by_cases h1 : n = 9600
  · subst h1; rfl
  by_cases h2 : n = 19200
  · subst h2; rfl
  by_cases h3 : n = 38400
  · subst h3; rfl
  by_cases h4 : n = 57600
  · subst h4; rfl
  by_cases h5 : n = 115200
  · subst h5; rfl
  by_cases h6 : n = 230400
  · subst h6; rfl
  by_cases h7 : n = 460800
  · subst h7; rfl
  have g1 : ¬ ((9600 : Int) = n) := fun h => h1 h.symm
  have g2 : ¬ ((19200 : Int) = n) := fun h => h2 h.symm
  have g3 : ¬ ((38400 : Int) = n) := fun h => h3 h.symm
  have g4 : ¬ ((57600 : Int) = n) := fun h => h4 h.symm
  have g5 : ¬ ((115200 : Int) = n) := fun h => h5 h.symm
  have g6 : ¬ ((230400 : Int) = n) := fun h => h6 h.symm
  have g7 : ¬ ((460800 : Int) = n) := fun h => h7 h.symm
  simp [h1, h2, h3, h4, h5, h6, h7, g1, g2, g3, g4, g5, g6, g7]

/-- The baud selection of `SetTTYParams` is the reference of the specification on
every C string. -/
theorem speed_eq_baudRef (s : List Char) (hs : NUL ∉ s) : SetTTYParams.speed s = baudRef s := by
  have key : ∀ r : List Char, NUL ∉ r →
      (if r.headD NUL ≠ NUL then
        (if atoi r = 9600 then some speed_t.B9600
          else if atoi r = 19200 then some .B19200
          else if atoi r = 38400 then some .B38400
          else if atoi r = 57600 then some .B57600
          else if atoi r = 115200 then some .B115200
          else if atoi r = 230400 then some .B230400
          else if atoi r = 460800 then some .B460800
          else none)
       else some .B115200) = if r = [] then some .B115200 else speedOfRate (atoi r) := by
    intro r hr
    cases r with
    | nil => simp
    | cons c cs =>
      have hc : c ≠ NUL := fun h => hr (h ▸ List.mem_cons_self _ _)
      rw [speedOfRate_eq]
      simp [hc]
  cases s with
  | nil => rfl
  | cons c cs =>
    have hcs : NUL ∉ cs := fun h => hs (List.mem_cons_of_mem _ h)
    by_cases hb : c = 'b'
    · subst hb
      have := key cs hcs
      simpa [SetTTYParams.speed, baudRef, baudRemainder] using this
    · by_cases hB : c = 'B'
      · subst hB
        have := key cs hcs
        simpa [SetTTYParams.speed, baudRef, baudRemainder] using this
      · have := key (c :: cs) hs
        have hm : baudRemainder (c :: cs) = c :: cs := by
          unfold baudRemainder
          split
          · rename_i heq; simp only [List.cons.injEq] at heq; exact absurd heq.1 hb
          · rename_i heq; simp only [List.cons.injEq] at heq; exact absurd heq.1 hB
          · rfl
        unfold SetTTYParams.speed baudRef
        rw [hm, ← this]
        simp only [List.headD_cons, hb, hB, or_self, if_false]

/-- At the length bound: when the first `N - 1` bytes hold no terminator, `ReadLine`
returns `N - 1` and has consumed the byte after them too, whatever it is. -/
theorem ReadLine_at_length_bound (N : Nat) (l : List Char) (c : Char)
    (rest : Channel) (result : List Char) (hl : ∀ x ∈ l, ¬ isTerminator x)
    (hlen : l.length + 1 = N) (hres : result.length = N) :
    ReadLine (l.map some ++ some c :: rest) result N false =
      ⟨(l.length : Int), l ++ [NUL], rest, []⟩ := by
  unfold ReadLine
  have h := ReadLine_loop_stop ((N : Int) - 1) false l c rest result 0 [] hl
    (by push_cast; omega) (Or.inr (by push_cast; omega)) (by omega)
  rw [h]
  have hd : List.drop (0 + l.length + 1) result = [] :=
    List.drop_eq_nil_of_le (by omega)
  rw [hd]
  simp

/-! ## The claims -/

/-- C1. For every source line `L` without a newline, the preprocessing of the send loop
yields the part of `L` before its first `;` (all of `L` when it has none) with
the trailing white space removed; when that is not empty, a session on the
line hands the transport exactly these bytes followed by one newline: they
contain no `;`, have no white space before the newline, and end in exactly
one newline. -/
theorem preprocess_payload (L : List Char) (hL : '\n' ∉ L) :
    preprocess L = preprocessRef L ∧
    (preprocess L ≠ [] →
      (∀ (env : Env) (filename : List Char) (connect_str : Option (List Char)),
        env.file filename = some L →
        0 ≤ (OpenMachineConnection env ⟨[], []⟩ (some (descriptorOf connect_str))).1 →
        none ∉ env.wr →
        ∃ o, main env filename connect_str = some o ∧
          o.s.k.calls.filterMap Call.sendEvent =
            [SendEvent.write (preprocess L ++ ['\n']) true, SendEvent.ack] ∧
          o.s.sent = preprocess L ++ ['\n']) ∧
      ';' ∉ preprocess L ++ ['\n'] ∧
      (∀ c, (preprocess L).getLast? = some c → isspace c = false) ∧
      (preprocess L ++ ['\n']).getLast? = some '\n' ∧
      (preprocess L ++ ['\n']).count '\n' = 1) := by
  refine ⟨preprocess_eq_ref L, fun hP => ⟨?_, ?_, ?_, ?_, ?_⟩⟩
  · intro env filename connect_str hfile hopen hwr
    obtain ⟨o, h1, -, -, -, h5, h6, -, -⟩ :=
      main_run env filename connect_str [L] hfile (by simp) (by simpa using hL) hopen hwr
    refine ⟨o, h1, ?_, ?_⟩
    · rw [h6]; simp [lineEvents, hP]
    · rw [h5]; simp [payload, hP]
  · intro h
    rcases List.mem_append.mp h with h | h
    · rw [preprocess_eq_ref] at h
      exact preprocessRef_no_semicolon L h
    · revert h; decide
  · intro c hc
    rw [preprocess_eq_ref] at hc
    exact preprocessRef_last L c hc
  · simp
  · have hn : '\n' ∉ preprocess L := fun h =>
      hL (preprocessRef_subset L _ (by rw [← preprocess_eq_ref]; exact h))
    rw [List.count_append, List.count_eq_zero_of_not_mem hn]
    rfl

/-- Witness of C1 on the line `G28 ; home`, whose payload is `G28` and a newline. -/
theorem preprocess_payload_witness :
    '\n' ∉ "G28 ; home".toList ∧ preprocess "G28 ; home".toList = "G28".toList ∧
      (preprocess "G28 ; home".toList ++ ['\n']).count '\n' = 1 :=
  ⟨by decide, by decide,
    ((preprocess_payload "G28 ; home".toList (by decide)).2 (by decide)).2.2.2.2⟩

/-- C3. For every sequence of input lines and every device on which no write fails,
once the transport is open the session runs to its end and its trace on the
transport is, line after line, one complete `reliable_write` of the payload
followed by one call of `WaitForOkAck` for each line whose preprocessed form
is not empty, and nothing for the others, whatever `WaitForOkAck` returns; the
device has taken the payloads in that order and nothing else. -/
theorem main_send_trace (env : Env) (filename : List Char) (connect_str : Option (List Char))
    (lines : List (List Char))
    (hfile : env.file filename = some (joinLines lines))
    (hne : lines ≠ []) (hnl : ∀ l ∈ lines, '\n' ∉ l)
    (hopen : 0 ≤ (OpenMachineConnection env ⟨[], []⟩ (some (descriptorOf connect_str))).1)
    (hwr : none ∉ env.wr) :
    ∃ o, main env filename connect_str = some o ∧ o.code = 0 ∧
      o.s.k.calls.filterMap Call.sendEvent = lines.flatMap lineEvents ∧
      o.s.sent = lines.flatMap payload := by
  obtain ⟨o, h1, h2, -, -, h5, h6, -, -⟩ :=
    main_run env filename connect_str lines hfile hne hnl hopen hwr
  exact ⟨o, h1, h2, h6, h5⟩

/-- Witness of C3: three lines, the second a comment; the first is answered `Resend: 1`
and the third `ok`, and each of the two is written once. -/
theorem main_send_trace_witness :
    (main (scenario "G1 X10\n ; note\nG1 Y10\n" "Resend: 1\nok\n" [some 3]) "job".toList
        none).map (fun o => (o.code, o.s.k.calls.filterMap Call.sendEvent, o.s.sent)) =
      some (0,
        [SendEvent.write "G1 X10\n".toList true, SendEvent.ack,
          SendEvent.write "G1 Y10\n".toList true, SendEvent.ack],
        "G1 X10\nG1 Y10\n".toList) := by
  obtain ⟨o, h1, h2, h3, h4⟩ :=
    main_send_trace (scenario "G1 X10\n ; note\nG1 Y10\n" "Resend: 1\nok\n" [some 3]) "job".toList
      none ["G1 X10".toList, " ; note".toList, "G1 Y10".toList, []]
      (by decide) (by decide) (by decide) (by decide) (by decide)
  rw [h1, Option.map_some', h2, h3, h4]
  decide

/-- C4. For every chunk size `N ≥ 1` and every payload, when the transport takes
`min N remaining` bytes at each write call, `reliable_write` returns true after
exactly `L / N` rounded up write calls, call `i` is offered the payload from
its byte `i * N` on, the first not yet taken, and the chunks taken make up the
payload. -/
theorem reliable_write_chunked (N : Nat) (hN : 1 ≤ N) (buffer : List Char)
    (rest : List (Option Nat)) :
    (reliable_write (List.replicate (chunks buffer.length N) (some N) ++ rest) buffer).ret = true ∧
    (reliable_write (List.replicate (chunks buffer.length N) (some N) ++ rest) buffer).calls.length
      = chunks buffer.length N ∧
    (∀ i, i < chunks buffer.length N →
      (reliable_write (List.replicate (chunks buffer.length N) (some N) ++ rest) buffer).calls.get? i
        = some (buffer.drop (i * N), ((min N (buffer.length - i * N) : Nat) : Int))) ∧
    accepted (reliable_write (List.replicate (chunks buffer.length N) (some N) ++ rest) buffer).calls
      = buffer ∧
    (reliable_write (List.replicate (chunks buffer.length N) (some N) ++ rest) buffer).wr = rest := by
  obtain ⟨h1, h2, h3, h4, h5⟩ := reliable_write_chunks N hN _ buffer rest rfl
  exact ⟨h1, h3, h4, h5, h2⟩

/-- Witness of C4: ten bytes in chunks of three are written in four calls. -/
theorem reliable_write_chunked_witness :
    1 ≤ 3 ∧ chunks "0123456789".toList.length 3 = 4 ∧
      (reliable_write (List.replicate (chunks "0123456789".toList.length 3) (some 3) ++ [])
        "0123456789".toList).calls.length = chunks "0123456789".toList.length 3 :=
  ⟨by decide, by decide, (reliable_write_chunked 3 (by decide) "0123456789".toList []).2.1⟩

/-- C5, at the input where the code leaves the claim.  With a buffer of 4 bytes on the
stream `abcdef` and a newline, `ReadLine` returns 3 and leaves `abc` and a NUL
in the buffer, but it has consumed 4 bytes and not 3: the next call returns
`ef`, and the byte `d`, which is no line terminator, is in neither. -/
theorem ReadLine_length_bound_drops_byte :
    ReadLine (bytes "abcdef\n") (List.replicate 4 NUL) 4 false =
      ⟨3, ['a', 'b', 'c', NUL], bytes "ef\n", []⟩ ∧
    ReadLine (bytes "ef\n") ['a', 'b', 'c', NUL] 4 false = ⟨2, ['e', 'f', NUL, NUL], [], []⟩ := by
  decide

/-- C7, at the inputs where the code leaves the claim.  On the two lines `G1 X10` and
`G1 Y10`, each ended by a newline and answered `ok`, the session ends with
`lines_sent = 2` and `line_count = 3`, not 2; on the five lines of the second
scenario with `lines_sent = 2` and `line_count = 6`, not 5: the loop tests
`input.eof()` before `getline`, so it runs once more after the last newline and
counts the empty line it gets. -/
theorem main_line_count_one_more :
    (main (scenario "G1 X10\nG1 Y10\n" "ok\nok\n" []) "job.gcode".toList none).map
        Outcome.summary = some (0, 2, 3, [], true) ∧
    (main (scenario "; header\nG28 ; home\n\n  \nM114\n" "ok\nok\n" []) "job.gcode".toList
        none).map Outcome.summary = some (0, 2, 6, [], true) :=
  ⟨by decide, by decide⟩

/-- C9, at the input where the code leaves the claim.  The transport opens as
descriptor 3 and is in the open set; the first write fails, `main` returns 1
without calling `close`, and descriptor 3 is still open at the exit.  On the
same input with writes that succeed the normal exit closes it. -/
theorem main_send_error_leaves_transport_open :
    OpenMachineConnection (scenario "G1 X10\n" "ok\n" [none]) ⟨[], []⟩
        (some (descriptorOf none)) =
      (3, ⟨[3], [Call.open_ "/dev/ttyUSB0".toList 3, Call.tcgetattr 3 true,
        Call.tcsetattr 3 speed_t.B115200 true]⟩) ∧
    (main (scenario "G1 X10\n" "ok\n" [none]) "job.gcode".toList none).map Outcome.summary =
      some (1, 0, 1, [3], false) ∧
    (main (scenario "G1 X10\n" "ok\n" []) "job.gcode".toList none).map Outcome.summary =
      some (0, 1, 2, [], true) :=
  ⟨by decide, by decide, by decide⟩

/-- C10. For every descriptor `d`, `OpenTCPSocket` resolves once, and the host and port it
hands to the resolution are `d` and `8888` when `d` has no `:`, and else the
text of `d` before its first `:` and the text after it, so that the host has no
`:` and host, `:` and port make up `d`; `localhost:4444` resolves `localhost`
on port `4444` and `localhost` resolves on port `8888`. -/
theorem OpenTCPSocket_host_port (env : Env) (k : Kernel) (d : List Char) :
    (∃ rest, (OpenTCPSocket env k d).2.calls =
        k.calls ++ Call.getaddrinfo (tcpTarget d).1 (tcpTarget d).2
          (env.getaddrinfo (tcpTarget d).1 (tcpTarget d).2) :: rest ∧
      ∀ c ∈ rest, ∀ h p r, c ≠ Call.getaddrinfo h p r) ∧
    (':' ∉ d → tcpTarget d = (d, "8888".toList)) ∧
    (':' ∈ d → ':' ∉ (tcpTarget d).1 ∧ (tcpTarget d).1 ++ ':' :: (tcpTarget d).2 = d) ∧
    (∃ rest, (OpenTCPSocket env k "localhost:4444".toList).2.calls =
        k.calls ++ Call.getaddrinfo "localhost".toList "4444".toList
          (env.getaddrinfo "localhost".toList "4444".toList) :: rest) ∧
    (∃ rest, (OpenTCPSocket env k "localhost".toList).2.calls =
        k.calls ++ Call.getaddrinfo "localhost".toList "8888".toList
          (env.getaddrinfo "localhost".toList "8888".toList) :: rest) := by
  refine ⟨?_, ?_, ?_, ?_, ?_⟩
  · rw [OpenTCPSocket_eq]
    exact tcpConnect_calls env k _ _
  · intro h
    unfold tcpTarget
    rw [if_neg h]
    rfl
  · intro h
    obtain ⟨h1, h2⟩ := split_at_first d ':' h
    unfold tcpTarget
    rw [if_pos h]
    exact ⟨h1, h2.symm⟩
  · rw [OpenTCPSocket_eq,
      show tcpTarget "localhost:4444".toList = ("localhost".toList, "4444".toList) by decide]
    obtain ⟨rest, h, -⟩ := tcpConnect_calls env k "localhost".toList "4444".toList
    exact ⟨rest, h⟩
  · rw [OpenTCPSocket_eq,
      show tcpTarget "localhost".toList = ("localhost".toList, "8888".toList) by decide]
    obtain ⟨rest, h, -⟩ := tcpConnect_calls env k "localhost".toList "8888".toList
    exact ⟨rest, h⟩

/-- Witness of C10: the descriptor `printer.local:23` has a `:`, and its host and port
are `printer.local` and `23`. -/
theorem OpenTCPSocket_host_port_witness :
    ':' ∈ "printer.local:23".toList ∧
      (tcpTarget "printer.local:23".toList).1 ++ ':' :: (tcpTarget "printer.local:23".toList).2
        = "printer.local:23".toList :=
  ⟨by decide,
    ((OpenTCPSocket_host_port (scenario "" "" []) ⟨[], []⟩ "printer.local:23".toList).2.2.1
      (by decide)).2⟩

end GcodeCli
